import Mathlib

/-!
Verification development for the SqlCoupling repository (SQL stored-procedure
dependency analyzer).  The definitions below are a shallow embedding of
`src/app/sql-parser.service.ts` and
`src/app/procedure-chain/procedure-chain.service.ts`: JavaScript strings are
modelled as `List Char` (the inputs of interest are ASCII, where UTF-16 code
units and Unicode code points coincide), the JavaScript regular expressions are
translated into backtracking matchers in continuation-passing style with the
exact alternation order, greediness and case-insensitivity of the source
patterns, and JavaScript `Map`/`Set`/`Array` state is threaded explicitly as
insertion-ordered association lists.
-/

namespace SqlCoupling

/-! ### JavaScript character and string primitives -/

/-- The quote character (code 39). -/
def chQuote : Char := Char.ofNat 39

/-- The double-quote character (code 34). -/
def chDQuote : Char := Char.ofNat 34

/-- The backquote character (code 96). -/
def chBacktick : Char := Char.ofNat 96

/-- The characters matched by JavaScript `\s` (and removed by `trim`). -/
def jsWsList : List Char :=
  [' ', '\t', '\n', '\r', Char.ofNat 0x0b, Char.ofNat 0x0c,
   Char.ofNat 0xa0, Char.ofNat 0x1680,
   Char.ofNat 0x2000, Char.ofNat 0x2001, Char.ofNat 0x2002, Char.ofNat 0x2003,
   Char.ofNat 0x2004, Char.ofNat 0x2005, Char.ofNat 0x2006, Char.ofNat 0x2007,
   Char.ofNat 0x2008, Char.ofNat 0x2009, Char.ofNat 0x200a,
   Char.ofNat 0x2028, Char.ofNat 0x2029, Char.ofNat 0x202f,
   Char.ofNat 0x205f, Char.ofNat 0x3000, Char.ofNat 0xfeff]

/-- JavaScript `\s` as a character predicate. -/
def isWsChar (c : Char) : Bool := jsWsList.contains c

/-- Case-insensitive character comparison (the `i` regex flag); ASCII folding. -/
def ciEq (c d : Char) : Bool := c.toLower == d.toLower

/-- JavaScript `String.prototype.includes`: `sub` occurs contiguously in `l`
(the empty string occurs in everything). -/
def containsSub : List Char → List Char → Bool
  | _, [] => true
  | [], _ :: _ => false
  | c :: rest, sub =>
    if sub.isPrefixOf (c :: rest) then true else containsSub rest sub

/-- JavaScript `String.prototype.startsWith`. -/
def listStartsWith (l sub : List Char) : Bool := sub.isPrefixOf l

/-- De-duplication preserving first occurrences: `[...new Set(xs)]`. -/
def jsSetDedup : List String → List String
  | [] => []
  | x :: rest => x :: (jsSetDedup rest).filter (fun y => ! (y == x))

/-- `Set.add` on an insertion-ordered list. -/
def addUnique (l : List String) (x : String) : List String :=
  if l.contains x then l else l ++ [x]

/-! ### `removeSqlComments` (sql-parser.service.ts lines 72 to 96)

The JavaScript pipeline is: normalize `\r\n` to `\n`; truncate every line at
its first `--`; replace every non-greedy `/* ... */` block with a space;
surround every `;` with spaces; collapse every whitespace run to one space;
trim. -/

/-- Step 1: `content.replace(/\r\n/g, '\n')`. -/
def normNL : List Char → List Char
  | '\r' :: '\n' :: rest => '\n' :: normNL rest
  | c :: rest => c :: normNL rest
  | [] => []

/-- Step 2: per line, drop everything from the first `--` on
(`split('\n')`, truncate at `indexOf('--')`, `join('\n')`).  The `Bool` flag
records whether we are inside a dropped comment tail. -/
def stripLC : Bool → List Char → List Char
  | _, [] => []
  | true, '\n' :: rest => '\n' :: stripLC false rest
  | true, _ :: rest => stripLC true rest
  | false, '-' :: '-' :: rest => stripLC true rest
  | false, '\n' :: rest => '\n' :: stripLC false rest
  | false, c :: rest => c :: stripLC false rest

/-- Scan for the closing `*/` of a block comment; returns the suffix after it
(the regex body `[\s\S]*?` is non-greedy, so the first closer wins). -/
def findCloseCmt : List Char → Option (List Char)
  | [] => none
  | [_] => none
  | c :: d :: rest =>
    if c = '*' ∧ d = '/' then some rest else findCloseCmt (d :: rest)

/-- Step 3 scanner: `replace(/\/\*[\s\S]*?\*\//g, ' ')` — global
left-to-right replacement of non-greedy block comments by a single space.
Structural in `fuel`; every step strictly shortens the list, so
`length + 1` fuel never runs out. -/
def removeBlockGo : Nat → List Char → List Char
  | 0, l => l
  | _ + 1, [] => []
  | fuel + 1, '/' :: '*' :: rest =>
    (match findCloseCmt rest with
     | some rest' => ' ' :: removeBlockGo fuel rest'
     | none => '/' :: removeBlockGo fuel ('*' :: rest))
  | fuel + 1, c :: rest => c :: removeBlockGo fuel rest

/-- Step 3 with sufficient fuel. -/
def removeBlock (l : List Char) : List Char := removeBlockGo (l.length + 1) l

/-- Step 4: `replace(/;/g, ' ; ')`. -/
def padSemis : List Char → List Char
  | [] => []
  | ';' :: rest => ' ' :: ';' :: ' ' :: padSemis rest
  | c :: rest => c :: padSemis rest

/-- Step 5 scanner: `replace(/\s+/g, ' ')` — collapse every whitespace run to
a single space.  The flag records that the current run's space was already
emitted. -/
def collapseGo : Bool → List Char → List Char
  | _, [] => []
  | true, c :: rest =>
    if isWsChar c then collapseGo true rest else c :: collapseGo false rest
  | false, c :: rest =>
    if isWsChar c then ' ' :: collapseGo true rest else c :: collapseGo false rest

/-- Step 5: `replace(/\s+/g, ' ')`. -/
def collapseWs (l : List Char) : List Char := collapseGo false l

/-- Right half of `trim`: drop the trailing whitespace run (keeps a prefix). -/
def trimRight : List Char → List Char
  | [] => []
  | c :: rest =>
    match trimRight rest with
    | [] => if isWsChar c then [] else [c]
    | r => c :: r

/-- JavaScript `String.prototype.trim`. -/
def jsTrim (l : List Char) : List Char := trimRight (l.dropWhile isWsChar)

/-- `removeSqlComments` on character lists. -/
def removeSqlCommentsL (l : List Char) : List Char :=
  jsTrim (collapseWs (padSemis (removeBlock (stripLC false (normNL l)))))

/-- `removeSqlComments` (sql-parser.service.ts lines 72 to 96). -/
def removeSqlComments (s : String) : String :=
  ⟨removeSqlCommentsL s.toList⟩

/-! ### Backtracking regex building blocks

Each JavaScript regex of the source is translated into a matcher written in
continuation-passing style.  Alternation order, greedy/lazy quantifiers and
backtracking follow the ECMAScript semantics; every quantifier in the source
patterns ranges over a single-character class, so the combinators below
suffice.  Character predicates are ASCII-faithful (the analyzed SQL is ASCII).
-/

/-- `[A-Z]` under the `i` flag (and `[A-Za-z]`). -/
def isLetterCh (c : Char) : Bool :=
  (decide ('A' ≤ c) && decide (c ≤ 'Z')) || (decide ('a' ≤ c) && decide (c ≤ 'z'))

/-- `[A-Z]` without the `i` flag. -/
def isUpperCh (c : Char) : Bool := decide ('A' ≤ c) && decide (c ≤ 'Z')

/-- `[0-9]`. -/
def isDigitCh (c : Char) : Bool := decide ('0' ≤ c) && decide (c ≤ '9')

/-- `\w` = `[A-Za-z0-9_]`. -/
def isWordCh (c : Char) : Bool := isLetterCh c || isDigitCh c || c = '_'

/-- `[\w.$]`. -/
def isWordDotDollarCh (c : Char) : Bool := isWordCh c || c = '.' || c = '$'

/-- `.` (the dot does not match line terminators). -/
def isDotCh (c : Char) : Bool :=
  ! (c = '\n' || c = '\r' || c = Char.ofNat 0x2028 || c = Char.ofNat 0x2029)

/-- The opening delimiter class of the source patterns (quote, double quote,
backquote or opening bracket). -/
def isOpenQ (c : Char) : Bool := c = chQuote || c = chDQuote || c = chBacktick || c = '['

/-- The closing delimiter class (quote, double quote, backquote or closing
bracket). -/
def isCloseQ (c : Char) : Bool := c = chQuote || c = chDQuote || c = chBacktick || c = ']'

/-- The quote-or-double-quote class of pass 4. -/
def isQuoteSD (c : Char) : Bool := c = chQuote || c = chDQuote

/-- `[^'"]`. -/
def isNonQuote (c : Char) : Bool := ! isQuoteSD c

/-- Case-insensitive literal. -/
def pLitCi {β : Type} : List Char → List Char → (List Char → Option β) → Option β
  | [], s, k => k s
  | _ :: _, [], _ => none
  | c :: cs, d :: ds, k => if ciEq c d then pLitCi cs ds k else none

/-- Case-insensitive literal that hands the matched text (as found) to the
continuation. -/
def pLitCiKeep {β : Type} : List Char → List Char → (List Char → List Char → Option β) → Option β
  | [], s, k => k [] s
  | _ :: _, [], _ => none
  | c :: cs, d :: ds, k =>
    if ciEq c d then pLitCiKeep cs ds (fun m r => k (d :: m) r) else none

/-- A single mandatory character from a class. -/
def pCls {β : Type} (cls : Char → Bool) (s : List Char) (k : List Char → Option β) : Option β :=
  match s with
  | c :: rest => if cls c then k rest else none
  | [] => none

/-- A single exact character. -/
def pExact {β : Type} (c : Char) (s : List Char) (k : List Char → Option β) : Option β :=
  pCls (fun d => d = c) s k

/-- Greedy optional single character (`X?`): try consuming first. -/
def pOptChar {β : Type} (cls : Char → Bool) (s : List Char) (k : List Char → Option β) : Option β :=
  (match s with
   | c :: rest => if cls c then k rest else none
   | [] => none) <|> k s

/-- Greedy optional subpattern (`(?:...)?`): try the subpattern first. -/
def pOpt {β : Type} (p : List Char → (List Char → Option β) → Option β)
    (s : List Char) (k : List Char → Option β) : Option β :=
  p s k <|> k s

/-- Greedy star over a character class (`X*`). -/
def pStarGreedy {β : Type} (cls : Char → Bool) : List Char → (List Char → Option β) → Option β
  | c :: rest, k =>
    if cls c then (pStarGreedy cls rest k) <|> k (c :: rest) else k (c :: rest)
  | [], k => k []

/-- Greedy plus over a character class (`X+`). -/
def pPlusGreedy {β : Type} (cls : Char → Bool) (s : List Char) (k : List Char → Option β) : Option β :=
  match s with
  | c :: rest => if cls c then pStarGreedy cls rest k else none
  | [] => none

/-- Lazy star over a character class (`X*?`): try the continuation first. -/
def pStarLazy {β : Type} (cls : Char → Bool) : List Char → (List Char → Option β) → Option β
  | s, k =>
    k s <|> match s with
            | c :: rest => if cls c then pStarLazy cls rest k else none
            | [] => none

/-- End-of-input anchor (`$`, no `m` flag). -/
def pEnd {β : Type} (s : List Char) (k : List Char → Option β) : Option β :=
  match s with
  | [] => k []
  | _ :: _ => none

/-! ### The captured procedure-name pattern `([A-Z]{2}_[A-Za-z0-9_]+?_SP)`

The body is lazy: after at least one body character the matcher first tries to
close with `_SP` (case-insensitively) and hand over to the continuation;
failure backtracks into a longer body. -/

/-- Try to close the name with `_SP` (the `S`/`P` case-insensitive). -/
def capSPClose {β : Type} (acc : List Char) (s : List Char)
    (k : List Char → List Char → Option β) : Option β :=
  match s with
  | '_' :: c2 :: c3 :: rest =>
    if ciEq c2 'S' && ciEq c3 'P' then k (acc ++ ['_', c2, c3]) rest else none
  | _ => none

/-- The lazy body `[A-Za-z0-9_]+?` followed by `_SP`. -/
def capSPBody {β : Type} (acc : List Char) : List Char → (List Char → List Char → Option β) → Option β
  | c :: rest, k =>
    if isWordCh c then
      (capSPClose (acc ++ [c]) rest k) <|> capSPBody (acc ++ [c]) rest k
    else none
  | [], _ => none

/-- The full captured name pattern (`i` flag: the two domain letters match any
case). -/
def capProcName {β : Type} (s : List Char) (k : List Char → List Char → Option β) : Option β :=
  match s with
  | c1 :: c2 :: '_' :: rest =>
    if isLetterCh c1 && isLetterCh c2 then capSPBody [c1, c2, '_'] rest k else none
  | _ => none

/-- Case-sensitive variant used by the pass-5 corroboration regex
`=\s*[\w\s]*?[A-Z]{2}_[A-Za-z0-9_]+?_SP` (no `i` flag). -/
def capSPCloseCS {β : Type} (acc : List Char) (s : List Char)
    (k : List Char → List Char → Option β) : Option β :=
  match s with
  | '_' :: 'S' :: 'P' :: rest => k (acc ++ ['_', 'S', 'P']) rest
  | _ => none

/-- Case-sensitive lazy body followed by `_SP`. -/
def capSPBodyCS {β : Type} (acc : List Char) : List Char → (List Char → List Char → Option β) → Option β
  | c :: rest, k =>
    if isWordCh c then
      (capSPCloseCS (acc ++ [c]) rest k) <|> capSPBodyCS (acc ++ [c]) rest k
    else none
  | [], _ => none

/-- Case-sensitive full name pattern. -/
def capProcNameCS {β : Type} (s : List Char) (k : List Char → List Char → Option β) : Option β :=
  match s with
  | c1 :: c2 :: '_' :: rest =>
    if isUpperCh c1 && isUpperCh c2 then capSPBodyCS [c1, c2, '_'] rest k else none
  | _ => none

/-! ### The global `exec` scan

`regex.exec` in a `while` loop with the `g` flag: repeatedly find the leftmost
match at or after `lastIndex`, then continue after the match (advancing by one
on an empty match).  The scanner threads the previous character (for `\b`) and
the absolute match index (for pass 5's line reconstruction). -/

/-- One `exec` loop; `fuel` is `length + 1`, enough to visit every start
position. -/
def scanA {α : Type} (matchAt : Option Char → List Char → Option (α × List Char)) :
    Nat → Option Char → Nat → List Char → List (α × Nat)
  | 0, _, _, _ => []
  | Nat.succ fuel, prev, pos, s =>
    match matchAt prev s with
    | some (a, rest) =>
      let consumed := s.length - rest.length
      if consumed = 0 then
        match s with
        | [] => [(a, pos)]
        | c :: r => (a, pos) :: scanA matchAt fuel (some c) (pos + 1) r
      else
        (a, pos) :: scanA matchAt fuel s[consumed - 1]? (pos + consumed) rest
    | none =>
      match s with
      | [] => []
      | c :: r => scanA matchAt fuel (some c) (pos + 1) r

/-- All captures of a position-independent matcher. -/
def execAllCaps {α : Type} (matchAt : List Char → Option (α × List Char)) (s : List Char) :
    List α :=
  (scanA (fun _ t => matchAt t) (s.length + 1) none 0 s).map Prod.fst

/-- First (leftmost) match of a matcher: `String.prototype.match` without `g`. -/
def searchFirst {α : Type} (matchAt : List Char → Option α) : List Char → Option α
  | [] => matchAt []
  | c :: rest =>
    match matchAt (c :: rest) with
    | some a => some a
    | none => searchFirst matchAt rest

/-! ### The five detection passes of `findExecCalls`
(sql-parser.service.ts lines 98 to 189) -/

/-- The optional schema qualifier `(?:\[?[\w]+\]?\.)?`. -/
def pQualifier {β : Type} (s : List Char) (k : List Char → Option β) : Option β :=
  pOpt (fun t k' =>
    pOptChar (fun d => d = '[') t (fun u =>
    pPlusGreedy isWordCh u (fun v =>
    pOptChar (fun d => d = ']') v (fun w =>
    pExact '.' w k')))) s k

/-- The optional output-assignment `(?:[\w.$]+\s*=\s*)?`. -/
def pAssign {β : Type} (s : List Char) (k : List Char → Option β) : Option β :=
  pOpt (fun t k' =>
    pPlusGreedy isWordDotDollarCh t (fun u =>
    pStarGreedy isWsChar u (fun v =>
    pExact '=' v (fun w =>
    pStarGreedy isWsChar w k')))) s k

/-- Pass 1 (line 109): `EXEC(?:UTE)?\s+(?:[\w.$]+\s*=\s*)?(?:(?:\[?[\w]+\]?\.)?|\s*)`
then optional delimiter, the captured name, optional closing delimiter. -/
def pass1At (s : List Char) : Option (List Char × List Char) :=
  pLitCi "EXEC".toList s (fun s1 =>
  pOpt (pLitCi "UTE".toList) s1 (fun s2 =>
  pPlusGreedy isWsChar s2 (fun s3 =>
  pAssign s3 (fun s4 =>
  (pQualifier s4 (fun s5 =>
    pOptChar isOpenQ s5 (fun s6 =>
    capProcName s6 (fun cap s7 =>
    pOptChar isCloseQ s7 (fun s8 => some (cap, s8)))))) <|>
  (pStarGreedy isWsChar s4 (fun s5 =>
    pOptChar isOpenQ s5 (fun s6 =>
    capProcName s6 (fun cap s7 =>
    pOptChar isCloseQ s7 (fun s8 => some (cap, s8))))))))))

/-- The eleven ordered context alternatives opening pass 2 (line 116). -/
def pass2Pre {β : Type} (s : List Char) (k : List Char → Option β) : Option β :=
  (pLitCi "CALL".toList s (fun t => pPlusGreedy isWsChar t k)) <|>
  (pExact ';' s (fun t => pStarGreedy isWsChar t k)) <|>
  (pLitCi "BEGIN".toList s (fun t => pPlusGreedy isWsChar t k)) <|>
  (pLitCi "FROM".toList s (fun t => pPlusGreedy isWsChar t k)) <|>
  (pExact '=' s (fun t => pStarGreedy isWsChar t k)) <|>
  (pLitCi "INSERT".toList s (fun t => pPlusGreedy isWsChar t (fun u =>
    pStarLazy isDotCh u (fun v => pLitCi "INTO".toList v (fun w =>
    pStarLazy isDotCh w (fun x => pPlusGreedy isWsChar x k)))))) <|>
  (pLitCi "UPDATE".toList s (fun t => pPlusGreedy isWsChar t (fun u =>
    pStarLazy isDotCh u (fun v => pLitCi "SET".toList v (fun w =>
    pStarLazy isDotCh w (fun x => pPlusGreedy isWsChar x k)))))) <|>
  (pLitCi "INTO".toList s (fun t => pPlusGreedy isWsChar t k)) <|>
  (pLitCi "JOIN".toList s (fun t => pPlusGreedy isWsChar t k)) <|>
  (pLitCi "CROSS".toList s (fun t => pPlusGreedy isWsChar t (fun u =>
    pLitCi "APPLY".toList u (fun v => pPlusGreedy isWsChar v k)))) <|>
  (pLitCi "OUTER".toList s (fun t => pPlusGreedy isWsChar t (fun u =>
    pLitCi "APPLY".toList u (fun v => pPlusGreedy isWsChar v k))))

/-- The seven ordered follower alternatives closing pass 2. -/
def pass2Suf {β : Type} (s : List Char) (k : List Char → Option β) : Option β :=
  (pStarGreedy isWsChar s (fun t => pExact '(' t k)) <|>
  (pPlusGreedy isWsChar s (fun t => pExact '@' t k)) <|>
  (pStarGreedy isWsChar s (fun t => pEnd t k)) <|>
  (pStarGreedy isWsChar s (fun t => pExact ',' t k)) <|>
  (pStarGreedy isWsChar s (fun t => pExact ';' t k)) <|>
  (pPlusGreedy isWsChar s (fun t => pLitCi "WITH".toList t k)) <|>
  (pPlusGreedy isWsChar s (fun t => pLitCi "ON".toList t k))

/-- Pass 2 (line 116): contextual direct calls. -/
def pass2At (s : List Char) : Option (List Char × List Char) :=
  pass2Pre s (fun s1 =>
  pQualifier s1 (fun s2 =>
  pOptChar isOpenQ s2 (fun s3 =>
  capProcName s3 (fun cap s4 =>
  pOptChar isCloseQ s4 (fun s5 =>
  pass2Suf s5 (fun s6 => some (cap, s6)))))))

/-- Pass 3 (line 122): `INSERT\s+(?:INTO)?\s+.*?\s+EXEC(?:UTE)?\s+...`. -/
def pass3At (s : List Char) : Option (List Char × List Char) :=
  pLitCi "INSERT".toList s (fun s1 =>
  pPlusGreedy isWsChar s1 (fun s2 =>
  pOpt (pLitCi "INTO".toList) s2 (fun s3 =>
  pPlusGreedy isWsChar s3 (fun s4 =>
  pStarLazy isDotCh s4 (fun s5 =>
  pPlusGreedy isWsChar s5 (fun s6 =>
  pLitCi "EXEC".toList s6 (fun s7 =>
  pOpt (pLitCi "UTE".toList) s7 (fun s8 =>
  pPlusGreedy isWsChar s8 (fun s9 =>
  pAssign s9 (fun s10 =>
  pQualifier s10 (fun s11 =>
  pOptChar isOpenQ s11 (fun s12 =>
  capProcName s12 (fun cap s13 =>
  pOptChar isCloseQ s13 (fun s14 => some (cap, s14)))))))))))))))

/-- Pass 4 (line 128): dynamic SQL; only the first alternative captures. -/
def pass4At (s : List Char) : Option (Option (List Char) × List Char) :=
  ((fun t (k : List Char → Option (Option (List Char) × List Char)) =>
      pLitCi "SET".toList t k <|> pLitCi "DECLARE".toList t k) s (fun s1 =>
    pPlusGreedy isWsChar s1 (fun s2 =>
    pExact '@' s2 (fun s3 =>
    pPlusGreedy isWordCh s3 (fun s4 =>
    pStarGreedy isWsChar s4 (fun s5 =>
    pExact '=' s5 (fun s6 =>
    pStarGreedy isWsChar s6 (fun s7 =>
    pOpt (pLitCi "N".toList) s7 (fun s8 =>
    pCls isQuoteSD s8 (fun s9 =>
    pStarLazy isNonQuote s9 (fun s10 =>
    capProcName s10 (fun cap s11 =>
    pStarLazy isNonQuote s11 (fun s12 =>
    pCls isQuoteSD s12 (fun s13 => some (some cap, s13))))))))))))))) <|>
  (pLitCi "EXEC".toList s (fun s1 =>
    pOpt (pLitCi "UTE".toList) s1 (fun s2 =>
    pStarGreedy isWsChar s2 (fun s3 =>
    pExact '(' s3 (fun s4 =>
    pStarGreedy isWsChar s4 (fun s5 =>
    pExact '@' s5 (fun s6 =>
    pPlusGreedy isWordCh s6 (fun s7 =>
    pStarGreedy isWsChar s7 (fun s8 =>
    pExact ')' s8 (fun s9 => some (none, s9)))))))))))

/-- `\b` before a word character. -/
def wordBoundaryBefore (prev : Option Char) : Bool :=
  match prev with
  | none => true
  | some c => ! isWordCh c

/-- Pass 5 matcher (line 135): `\b([A-Z]{2}_[A-Za-z0-9_]+?_SP)\b`. -/
def pass5At (prev : Option Char) (s : List Char) : Option (List Char × List Char) :=
  if wordBoundaryBefore prev then
    capProcName s (fun cap rest =>
      match rest with
      | [] => some (cap, rest)
      | c :: _ => if isWordCh c then none else some (cap, rest))
  else none

/-- All pass-5 matches with their indices. -/
def pass5Matches (s : List Char) : List (List Char × Nat) :=
  scanA pass5At (s.length + 1) none 0 s

/-- Index of the last occurrence of `c` at or before `pos`
(`lastIndexOf(c, pos)`). -/
def lastIdxOfAtMost (l : List Char) (c : Char) (pos : Nat) : Option Nat :=
  (((List.range l.length).filter (fun i => l[i]? = some c ∧ i ≤ pos)).getLast?)

/-- Index of the first occurrence of `c` at or after `pos` (`indexOf(c, pos)`). -/
def firstIdxOfAtLeast (l : List Char) (c : Char) (pos : Nat) : Option Nat :=
  (((List.range l.length).filter (fun i => l[i]? = some c ∧ pos ≤ i)).head?)

/-- The corroboration regex of pass 5 (line 153), as an existence test. -/
def eqAssignAt (s : List Char) : Option Unit :=
  pExact '=' s (fun s1 =>
  pStarLazy (fun c => isWordCh c || isWsChar c) s1 (fun s2 =>
  capProcNameCS s2 (fun _ _ => some ())))

/-- The per-line corroborating-signal test of pass 5 (lines 150 to 155). -/
def lineHasSignal (line : List Char) : Bool :=
  containsSub line "EXEC".toList ||
  containsSub line "CALL".toList ||
  containsSub line "INSERT".toList ||
  (searchFirst eqAssignAt line).isSome ||
  line.contains '(' ||
  line.contains '@'

/-- Pass 5 (lines 135 to 159): the fallback scan with the own-definition guard
and the corroborating-signal check on the containing line. -/
def pass5Names (cleaned : List Char) : List (List Char) :=
  (pass5Matches cleaned).filterMap (fun pr =>
    let procName := pr.1
    let pos := pr.2
    if (! containsSub cleaned ("CREATE PROCEDURE ".toList ++ procName)) &&
       (! containsSub cleaned ("CREATE OR ALTER PROCEDURE ".toList ++ procName)) &&
       (! containsSub cleaned ("ALTER PROCEDURE ".toList ++ procName)) then
      let lineStart := match lastIdxOfAtMost cleaned '\n' pos with
        | some i => i + 1
        | none => 0
      let lineEnd := match firstIdxOfAtLeast cleaned '\n' pos with
        | some e => e
        | none => cleaned.length
      let currentLine := (cleaned.drop lineStart).take (lineEnd - lineStart)
      if lineHasSignal currentLine then some procName else none
    else none)

/-- `CREATE\s+(?:OR\s+ALTER\s+)?PROCEDURE\s+([A-Z]{2}_[A-Za-z0-9_]+?_SP)` at a
position. -/
def createProcAt (s : List Char) : Option (List Char) :=
  pLitCi "CREATE".toList s (fun s1 =>
  pPlusGreedy isWsChar s1 (fun s2 =>
  pOpt (fun t k => pLitCi "OR".toList t (fun u =>
    pPlusGreedy isWsChar u (fun v => pLitCi "ALTER".toList v (fun w =>
    pPlusGreedy isWsChar w k)))) s2 (fun s3 =>
  pLitCi "PROCEDURE".toList s3 (fun s4 =>
  pPlusGreedy isWsChar s4 (fun s5 =>
  capProcName s5 (fun cap _ => some cap))))))

/-- `ALTER\s+PROCEDURE\s+([A-Z]{2}_[A-Za-z0-9_]+?_SP)` at a position. -/
def alterProcAt (s : List Char) : Option (List Char) :=
  pLitCi "ALTER".toList s (fun s1 =>
  pPlusGreedy isWsChar s1 (fun s2 =>
  pLitCi "PROCEDURE".toList s2 (fun s3 =>
  pPlusGreedy isWsChar s3 (fun s4 =>
  capProcName s4 (fun cap _ => some cap)))))

/-- `extractProcedureNameFromContent` (lines 192 to 196): the declared name of
the enclosing procedure, or the empty string. -/
def extractProcedureNameFromContentL (l : List Char) : List Char :=
  match searchFirst createProcAt l with
  | some cap => cap
  | none =>
    match searchFirst alterProcAt l with
    | some cap => cap
    | none => []

/-- `extractProcedureNameFromContent` on `String`. -/
def extractProcedureNameFromContent (s : String) : String :=
  ⟨extractProcedureNameFromContentL s.toList⟩

/-- The FI_Post fallback regex `FI_Post[A-Za-z0-9_]+?_SP` (`i` flag), first
match, whole matched text (line 178). -/
def fiPostAt (s : List Char) : Option (List Char) :=
  pLitCiKeep "FI_Post".toList s (fun pre rest =>
    capSPBody pre rest (fun m _ => some m))

/-- First FI_Post-style name in the original content. -/
def fiPostFirstMatch (l : List Char) : Option (List Char) :=
  searchFirst fiPostAt l

/-- Passes 1 to 5 plus the hard-coded critical-procedure checks (lines 161 to
173): everything accumulated in `execCalls` before the FI_Post fallback. -/
def baseCalls (original : List Char) : List (List Char) :=
  let cleaned := removeSqlCommentsL original
  let calls1 := execAllCaps pass1At cleaned
  let calls2 := execAllCaps pass2At cleaned
  let calls3 := execAllCaps pass3At cleaned
  let calls4 := (execAllCaps pass4At cleaned).filterMap id
  let calls5 := pass5Names cleaned
  let ownName := extractProcedureNameFromContentL original
  let crit1 :=
    if containsSub original "FI_PostFuelInventory_SP".toList &&
       (! containsSub "FI_PostFuelInventory_SP".toList ownName) then
      ["FI_PostFuelInventory_SP".toList] else []
  let crit2 :=
    if containsSub original "WI_PostRepack_PostFuelTransferOut_SP".toList &&
       (! containsSub "WI_PostRepack_PostFuelTransferOut_SP".toList ownName) then
      ["WI_PostRepack_PostFuelTransferOut_SP".toList] else []
  calls1 ++ calls2 ++ calls3 ++ calls4 ++ calls5 ++ crit1 ++ crit2

/-- The FI_Post fallback block (lines 176 to 185). -/
def fiPostExtra (original : List Char) (base : List (List Char)) : List (List Char) :=
  if containsSub original "FI_Post".toList &&
     (! base.any (fun c => listStartsWith c "FI_Post".toList)) then
    match fiPostFirstMatch original with
    | some m => [m]
    | none => ["FI_PostFuelInventory_SP".toList]
  else []

/-- `findExecCalls` (sql-parser.service.ts lines 98 to 189) on character
lists; the final step is the `[...new Set(execCalls)]` de-duplication. -/
def findExecCallsL (original : List Char) : List String :=
  let base := baseCalls original
  jsSetDedup ((base ++ fiPostExtra original base).map (fun l => (⟨l⟩ : String)))

/-- `findExecCalls` on `String`. -/
def findExecCalls (s : String) : List String :=
  findExecCallsL s.toList

/-! ### Filename resolvers

`extractSpDetailsFromName` (sql-parser.service.ts lines 60 to 69) and
`extractProcedureInfo` (procedure-chain.service.ts lines 1237 to 1245) both
apply `/^([A-Z]{2})_([A-Za-z0-9_]+?_SP)(?:\.sql)?$/i` to a bare filename, but
assemble the `name` differently: the former keeps the domain prefix as written
in the filename, the latter upper-cases it. -/

/-- The anchored filename pattern; returns (group 1, group 2) as found. -/
def spNameParts (fileName : List Char) : Option (List Char × List Char) :=
  match fileName with
  | c1 :: c2 :: '_' :: rest =>
    if isLetterCh c1 && isLetterCh c2 then
      capSPBody [] rest (fun m r =>
        pOpt (pLitCi ".sql".toList) r (fun r2 =>
          pEnd r2 (fun _ => some ([c1, c2], m))))
    else none
  | _ => none

/-- The `{name, domain}` record both resolvers produce. -/
structure SpDetails where
  name : String
  domain : String
deriving Repr, DecidableEq

/-- `extractSpDetailsFromName`: `name` is `` `${match[1]}_${match[2]}` `` (the
domain as written), `domain` is `match[1].toUpperCase()`. -/
def extractSpDetailsFromName (fileName : String) : Option SpDetails :=
  match spNameParts fileName.toList with
  | some (d, body) => some ⟨⟨d ++ '_' :: body⟩, ⟨d.map Char.toUpper⟩⟩
  | none => none

/-- `extractProcedureInfo` of the chain walker: the domain is upper-cased both
in `domain` and inside `name`. -/
def extractProcedureInfo (fileName : String) : Option SpDetails :=
  match spNameParts fileName.toList with
  | some (d, body) =>
    some ⟨⟨(d.map Char.toUpper) ++ '_' :: body⟩, ⟨d.map Char.toUpper⟩⟩
  | none => none

/-- The unanchored-`match` test `/^[A-Z]{2}_[A-Za-z0-9_]+?_SP$/` (no `i` flag)
used on call targets (sql-parser.service.ts line 289 and
procedure-chain.service.ts line 428). -/
def matchesProcPattern (t : String) : Bool :=
  match t.toList with
  | c1 :: c2 :: '_' :: rest =>
    if isUpperCh c1 && isUpperCh c2 then
      (capSPBodyCS ([] : List Char) rest (fun _ r =>
        pEnd r (fun _ => some ()))).isSome
    else false
  | _ => false

/-! ### Path helpers (path-browserify, posix flavour; the analyzed relative
paths carry no trailing slashes) -/

/-- Split on `/`. -/
def splitOnSlash : List Char → List (List Char)
  | [] => [[]]
  | '/' :: rest => [] :: splitOnSlash rest
  | c :: rest =>
    match splitOnSlash rest with
    | seg :: segs => (c :: seg) :: segs
    | [] => [[c]]

/-- Join with `/`. -/
def joinSlash : List (List Char) → List Char
  | [] => []
  | [seg] => seg
  | seg :: segs => seg ++ '/' :: joinSlash segs

/-- `path.basename`. -/
def pathBasename (p : String) : String :=
  ⟨(splitOnSlash p.toList).getLastD []⟩

/-- `path.dirname`. -/
def pathDirname (p : String) : String :=
  let segs := splitOnSlash p.toList
  if segs.length ≤ 1 then "."
  else
    let pre := joinSlash segs.dropLast
    if pre = [] then "/" else ⟨pre⟩

/-! ### `analyzeDirectory` (sql-parser.service.ts lines 198 to 356)

The file provider (`window.electronAPI.readDirectory`) is external (spec
section 6); its output — the recursively collected `.sql` files with eagerly
read contents, plus per-file I/O error strings — is the input here.  Pass 1
discovers procedures; pass 2 iterates the `Map` entries (entries appended
during iteration are visited too, as in JavaScript), detects calls, creates
virtual records and emits de-duplicated directory edges. -/

/-- One `{path, content}` file of the provider. -/
structure SqlFile where
  path : String
  content : String
deriving Repr, DecidableEq

/-- A registered (real or virtual) procedure. -/
structure ProcedureInfo where
  id : String
  name : String
  domain : String
  filePath : String
  directoryPath : String
  lineCount : Nat
deriving Repr, DecidableEq

/-- One directory-level edge. -/
structure DirectoryDependency where
  sourceDirectory : String
  targetDirectory : String
  isCrossDomain : Bool
deriving Repr, DecidableEq

/-- The per-procedure detected-call record. -/
structure ProcedureCalls where
  source : String
  targets : List String
  fileContent : String
deriving Repr, DecidableEq

/-- The result record of `analyzeDirectory`; the `Map` is an insertion-ordered
association list. -/
structure ParsedDirectoryResult where
  procedures : List (String × ProcedureInfo)
  directoryDependencies : List DirectoryDependency
  allScannedDirectories : List String
  procedureCalls : List ProcedureCalls
  errors : List String
  totalLineCount : Nat
deriving Repr, DecidableEq

/-- `content.split('\n').length`. -/
def jsLineCount (content : String) : Nat :=
  (content.toList.filter (fun c => c = '\n')).length + 1

/-- Map lookup keyed by name (first match; keys are unique). -/
def lookupProc (m : List (String × ProcedureInfo)) (name : String) : Option ProcedureInfo :=
  (m.find? (fun pr => pr.1 == name)).map Prod.snd

/-- A single-quote string piece for the warning texts. -/
def sq : String := "\x27"

/-- The duplicate-name warning (line 238). -/
def dupWarning (name firstPath secondPath : String) : String :=
  "Warning: Duplicate procedure name " ++ sq ++ name ++ sq ++
  " found. Using first encountered at " ++ sq ++ firstPath ++ sq ++
  ". Second at " ++ sq ++ secondPath ++ sq ++ "."

/-- The virtual-record note (line 310). -/
def virtualNote (name : String) : String :=
  "Note: Created virtual procedure entry for " ++ sq ++ name ++ sq ++
  " to track dependencies."

/-- The unknown-target warning (line 337). -/
def unknownWarning (src tgt : String) : String :=
  "Warning: Procedure " ++ sq ++ src ++ sq ++ " calls unknown procedure " ++
  sq ++ tgt ++ sq ++ "."

/-- `directoryPath === '.' ? rootPath.split(path.sep).pop() || 'Root' :
directoryPath` (lines 249 and 253). -/
def dirForFile (rootPath : String) (fileDir : String) : String :=
  if fileDir == "." then
    (let seg : String := ⟨(splitOnSlash rootPath.toList).getLastD []⟩
     if seg == "" then "Root" else seg)
  else fileDir

/-- State of the discovery pass. -/
structure ScanState where
  proceduresMap : List (String × ProcedureInfo)
  allDirectoriesSet : List String
  processingErrors : List String
deriving Repr, DecidableEq

/-- Pass 1 for one file (lines 232 to 258): first-seen wins, duplicates are
reported, the directory is recorded either way. -/
def pass1Step (rootPath : String) (st : ScanState) (file : SqlFile) : ScanState :=
  let fileName := pathBasename file.path
  match extractSpDetailsFromName fileName with
  | some spDetails =>
    let dirPath := dirForFile rootPath (pathDirname file.path)
    let st1 :=
      match lookupProc st.proceduresMap spDetails.name with
      | some existing =>
        { st with processingErrors := st.processingErrors ++
            [dupWarning spDetails.name existing.filePath file.path] }
      | none =>
        let lineCount := jsLineCount file.content
        let created : ProcedureInfo :=
          { id := spDetails.name, name := spDetails.name,
            domain := spDetails.domain, filePath := file.path,
            directoryPath := dirPath, lineCount := lineCount }
        { st with proceduresMap := st.proceduresMap ++ [(spDetails.name, created)] }
    { st1 with allDirectoriesSet := addUnique st1.allDirectoriesSet dirPath }
  | none => st

/-- State of the edge pass. -/
structure Pass2State where
  proceduresMap : List (String × ProcedureInfo)
  allDirectoriesSet : List String
  processingErrors : List String
  directoryDependencies : List DirectoryDependency
  dependencySet : List String
  procedureCalls : List ProcedureCalls
deriving Repr, DecidableEq

/-- The virtual `ProcedureInfo` created for an unresolved target
(lines 290 to 306): domain from the 2-letter prefix, directory guessed from an
already-known same-domain record, else the synthetic `<DOMAIN>_Domain`. -/
def mkVirtualRecord (m : List (String × ProcedureInfo)) (targetProcName : String) :
    ProcedureInfo :=
  let domain : String := ⟨targetProcName.toList.take 2⟩
  let sameDomainProc := (m.map Prod.snd).find? (fun p => p.domain == domain)
  let directoryPath :=
    match sameDomainProc with
    | some p => p.directoryPath
    | none => domain ++ "_Domain"
  { id := targetProcName, name := targetProcName, domain := domain,
    filePath := "[Virtual] " ++ targetProcName ++ ".sql",
    directoryPath := directoryPath, lineCount := 0 }

/-- Lines 286 to 311: look the target up; if absent but matching the naming
pattern, append the virtual record and the non-fatal note. -/
def resolveTarget (st : Pass2State) (targetProcName : String) :
    Pass2State × Option ProcedureInfo :=
  match lookupProc st.proceduresMap targetProcName with
  | some ti => (st, some ti)
  | none =>
    if matchesProcPattern targetProcName then
      let ti := mkVirtualRecord st.proceduresMap targetProcName
      let stV : Pass2State :=
        { st with
          proceduresMap := st.proceduresMap ++ [(targetProcName, ti)],
          processingErrors := st.processingErrors ++ [virtualNote targetProcName] }
      (stV, some ti)
    else (st, none)

/-- Lines 316 to 333: the (de-duplicated, non-self-loop) directory edge. -/
def addDirectoryEdge (showAllDependencies : Bool) (sourceProcInfo targetProcInfo : ProcedureInfo)
    (st1 : Pass2State) : Pass2State :=
  if showAllDependencies || (sourceProcInfo.domain != targetProcInfo.domain) then
    (let depKey := sourceProcInfo.directoryPath ++ "\x2d\x2d\x2d>" ++
       targetProcInfo.directoryPath
     if (! st1.dependencySet.contains depKey) &&
        (sourceProcInfo.directoryPath != targetProcInfo.directoryPath) then
       { st1 with
         directoryDependencies := st1.directoryDependencies ++
           [{ sourceDirectory := sourceProcInfo.directoryPath,
              targetDirectory := targetProcInfo.directoryPath,
              isCrossDomain := sourceProcInfo.domain != targetProcInfo.domain }],
         dependencySet := st1.dependencySet ++ [depKey] }
     else st1)
  else st1

/-- One detected target (lines 284 to 338): resolve or create a virtual
record, then maybe add the edge, then record the target directory. -/
def processTarget (showAllDependencies : Bool) (sourceProcName : String)
    (sourceProcInfo : ProcedureInfo) (st : Pass2State) (targetProcName : String) :
    Pass2State :=
  let resolved := resolveTarget st targetProcName
  let st1 := resolved.1
  match resolved.2 with
  | some targetProcInfo =>
    let st2 := addDirectoryEdge showAllDependencies sourceProcInfo targetProcInfo st1
    { st2 with allDirectoriesSet :=
        addUnique st2.allDirectoriesSet targetProcInfo.directoryPath }
  | none =>
    { st1 with processingErrors := st1.processingErrors ++
        [unknownWarning sourceProcName targetProcName] }

/-- One source procedure of pass 2 (lines 264 to 340): look up its file,
detect calls, apply the hard-coded special case, record the call list, process
every target. -/
def processSource (filesData : List SqlFile) (showAllDependencies : Bool)
    (entry : String × ProcedureInfo) (st : Pass2State) : Pass2State :=
  let sourceProcName := entry.1
  let sourceProcInfo := entry.2
  match filesData.find? (fun f => f.path == sourceProcInfo.filePath) with
  | none => st
  | some fileData =>
    let calls0 := findExecCalls fileData.content
    let calledProcNames :=
      if sourceProcName == "WI_PostRepack_PostFuelTransferOut_SP" &&
         (! calls0.contains "FI_PostFuelInventory_SP") then
        calls0 ++ ["FI_PostFuelInventory_SP"]
      else calls0
    let st1 := { st with procedureCalls := st.procedureCalls ++
        [{ source := sourceProcName, targets := calledProcNames,
           fileContent := fileData.content }] }
    calledProcNames.foldl
      (processTarget showAllDependencies sourceProcName sourceProcInfo) st1

/-- The pass-2 `for..of` over the `Map` entries by index; entries appended
during iteration are visited (JavaScript `Map` iteration semantics).  `fuel`
bounds the number of processed entries and is chosen large enough below. -/
def pass2Loop (filesData : List SqlFile) (showAllDependencies : Bool) :
    Nat → Nat → Pass2State → Pass2State
  | 0, _, st => st
  | Nat.succ fuel, i, st =>
    match st.proceduresMap[i]? with
    | some entry =>
      pass2Loop filesData showAllDependencies fuel (i + 1)
        (processSource filesData showAllDependencies entry st)
    | none => st

/-- Enough fuel: the initial entries plus every name any file's call list can
contribute (virtual entries are created at most once per detected name, plus
one hard-coded push). -/
def pass2Fuel (filesData : List SqlFile) (initLen : Nat) : Nat :=
  initLen + filesData.foldl (fun a f => a + (findExecCalls f.content).length + 1) 0 + 1

/-- Code-unit lexicographic string order (the `Array.prototype.sort` default
comparator; code units and code points agree on the ASCII names involved). -/
def listStrLE : List Char → List Char → Bool
  | [], _ => true
  | _ :: _, [] => false
  | a :: as, b :: bs =>
    if a.toNat < b.toNat then true
    else if b.toNat < a.toNat then false
    else listStrLE as bs

/-- `listStrLE` on `String`. -/
def strLE (x y : String) : Bool := listStrLE x.toList y.toList

/-- String-order insertion sort (`Array.prototype.sort` default comparator on
ASCII names). -/
def insertSorted (x : String) : List String → List String
  | [] => [x]
  | y :: rest => if strLE x y then x :: y :: rest else y :: insertSorted x rest

/-- JavaScript default string sort. -/
def jsSortStrings : List String → List String
  | [] => []
  | x :: rest => insertSorted x (jsSortStrings rest)

/-- `analyzeDirectory` (lines 198 to 356).  The directory listing and its I/O
errors come from the external file provider; `showAllDependencies` is the
`includeSameDomain` flag. -/
def analyzeDirectory (rootPath : String) (filesData : List SqlFile)
    (fsErrors : List String) (showAllDependencies : Bool) : ParsedDirectoryResult :=
  let st1 := filesData.foldl (pass1Step rootPath)
    { proceduresMap := [], allDirectoriesSet := [], processingErrors := fsErrors }
  let st2 := pass2Loop filesData showAllDependencies
    (pass2Fuel filesData st1.proceduresMap.length) 0
    { proceduresMap := st1.proceduresMap,
      allDirectoriesSet := st1.allDirectoriesSet,
      processingErrors := st1.processingErrors,
      directoryDependencies := [], dependencySet := [], procedureCalls := [] }
  { procedures := st2.proceduresMap,
    directoryDependencies := st2.directoryDependencies,
    allScannedDirectories := jsSortStrings st2.allDirectoriesSet,
    procedureCalls := st2.procedureCalls,
    errors := st2.processingErrors,
    totalLineCount := (st2.proceduresMap.map (fun pr => pr.2.lineCount)).sum }

/-! ### Cycle detection (procedure-chain.service.ts lines 1247 to 1349)

Only the fields `id`, `domain` and `calls` of a `ProcedureNode` are read by
`detectCycles`; the node shape below carries the structural fields of the
interface (the `calledBy`/`metrics` fields are populated by other methods and
never read here). -/

/-- A chain-walker node. -/
structure ProcedureNode where
  id : String
  name : String
  domain : String
  filePath : String
  calls : List String
  level : Nat
  isRoot : Bool
  isMissing : Bool
deriving Repr, DecidableEq

/-- A detected cycle. -/
structure ProcedureCycle where
  procedures : List String
  domains : List String
  isCrossDomain : Bool
deriving Repr, DecidableEq

/-- `Map.set` semantics: replace in place or append. -/
def mapSetNode (m : List (String × ProcedureNode)) (k : String) (v : ProcedureNode) :
    List (String × ProcedureNode) :=
  if m.any (fun pr => pr.1 == k) then
    m.map (fun pr => if pr.1 == k then (k, v) else pr)
  else m ++ [(k, v)]

/-- The `nodeMap` of `detectCycles` (lines 1256 to 1259). -/
def buildNodeMap (nodes : List ProcedureNode) : List (String × ProcedureNode) :=
  nodes.foldl (fun m n => mapSetNode m n.id n) []

/-- `nodeMap.get`. -/
def nodeMapGet (m : List (String × ProcedureNode)) (k : String) : Option ProcedureNode :=
  (m.find? (fun pr => pr.1 == k)).map Prod.snd

/-- `Array.prototype.join(',')`. -/
def joinComma (l : List String) : String := String.intercalate "," l

/-- The mutable state threaded through `dfsDetectCycles`. -/
structure DfsState where
  visited : List String
  path : List String
  allCycles : List ProcedureCycle
  globalVisited : List String
deriving Repr, DecidableEq

/-- `dfsDetectCycles` (lines 1285 to 1349).  Note the aliasing bug of the
source: `cycle.procedures` references `cycleProcedures`, which
`cycleProcedures.sort()` then sorts IN PLACE while computing the dedup key, so
the stored cycle carries the sorted array, not the path slice; the
`c.procedures.sort()` inside the dedup test re-sorts already-sorted stored
arrays (observationally a no-op).  Both effects are reproduced here. -/
def dfsDetectCycles (nodeMap : List (String × ProcedureNode)) :
    Nat → String → DfsState → DfsState
  | 0, _, st => st
  | Nat.succ fuel, currentId, st =>
    let stG := { st with globalVisited := addUnique st.globalVisited currentId }
    if stG.visited.contains currentId then
      match stG.path.findIdx? (fun x => x == currentId) with
      | some cycleStartIndex =>
        let cycleProcedures := stG.path.drop cycleStartIndex ++ [currentId]
        let domains := cycleProcedures.foldl (fun ds procId =>
          match nodeMapGet nodeMap procId with
          | some node => addUnique ds node.domain
          | none => ds) []
        let sortedProcs := jsSortStrings cycleProcedures
        let cycleKey := joinComma sortedProcs
        if stG.allCycles.any
            (fun c => joinComma (jsSortStrings c.procedures) == cycleKey) then stG
        else
          { stG with allCycles := stG.allCycles ++
              [{ procedures := sortedProcs, domains := domains,
                 isCrossDomain := domains.length > 1 }] }
      | none => stG
    else
      match nodeMapGet nodeMap currentId with
      | none => stG
      | some currentNode =>
        let stIn := { stG with visited := stG.visited ++ [currentId],
                               path := stG.path ++ [currentId] }
        let stOut := currentNode.calls.foldl (fun s calledProcId =>
          if nodeMap.any (fun pr => pr.1 == calledProcId) then
            dfsDetectCycles nodeMap fuel calledProcId s
          else s) stIn
        { stOut with path := stOut.path.dropLast,
                     visited := stOut.visited.erase currentId }

/-- `detectCycles` (lines 1252 to 1280): one DFS per not-yet-globally-visited
node, fresh per-root `visited`/`path`, shared cycle list and global-visited
set.  The fuel `nodes.length + 1` covers the maximal DFS depth (the path holds
distinct node ids). -/
def detectCycles (nodes : List ProcedureNode) : List ProcedureCycle :=
  let nodeMap := buildNodeMap nodes
  (nodes.foldl (fun (acc : List ProcedureCycle × List String) node =>
    if acc.2.contains node.id then acc
    else
      let st := dfsDetectCycles nodeMap (nodes.length + 1) node.id
        { visited := [], path := [], allCycles := acc.1, globalVisited := acc.2 }
      (st.allCycles, st.globalVisited)) (([], []) : List ProcedureCycle × List String)).1

/-! ## Theorems -/

/-! ### Synthetic inputs for the cycle-detection claims -/

/-- A synthetic node (only `id`/`domain`/`calls` are read by `detectCycles`). -/
def mkNode (i d : String) (cs : List String) : ProcedureNode :=
  { id := i, name := i, domain := d, filePath := i ++ ".sql", calls := cs,
    level := 0, isRoot := false, isMissing := false }

/-- The 3-procedure ring A calls B, B calls C, C calls A. -/
def ringNodes : List ProcedureNode :=
  [mkNode "FI_A_SP" "FI" ["WI_B_SP"],
   mkNode "WI_B_SP" "WI" ["MG_C_SP"],
   mkNode "MG_C_SP" "MG" ["FI_A_SP"]]

/-- The 2-node mutual pair: the DFS starts at `WI_B_SP`, so the path at the
revisit is `[WI_B_SP, FI_A_SP]` and the emitted slice (before the source's
in-place sort) is `[WI_B_SP, FI_A_SP, WI_B_SP]`. -/
def pairNodes : List ProcedureNode :=
  [mkNode "WI_B_SP" "WI" ["FI_A_SP"],
   mkNode "FI_A_SP" "FI" ["WI_B_SP"]]

/-- The C2 counterexample input: a procedure that calls itself. -/
def c2input : String :=
  "CREATE PROCEDURE FI_A_SP AS BEGIN EXEC FI_A_SP END"

/-- The case-insensitive pair relation used by `pLitCi`. -/
def CiMatches (lit pre : List Char) : Prop :=
  List.Forall₂ (fun c d => ciEq c d = true) lit pre

/-- The optional-suffix shape of the filename pattern. -/
def CiSqlExt (ext : List Char) : Prop :=
  ext = [] ∨ ∃ p q u v, ext = [p, q, u, v] ∧ ciEq '.' p = true ∧
    ciEq 's' q = true ∧ ciEq 'q' u = true ∧ ciEq 'l' v = true

/-- The naming convention as the spec words it (spec-side definition for the
refinement conjunct of the C5 theorem): exactly two leading letters, an
underscore, a non-empty word-character body ending in `_SP`, an optional
`.sql` suffix, all case-insensitive. -/
def specConventionMatch (f : String) : Prop :=
  ∃ (c1 c2 : Char) (b : List Char) (x y : Char) (ext : List Char),
    f.toList = c1 :: c2 :: '_' :: (b ++ '_' :: x :: y :: ext) ∧
    isLetterCh c1 = true ∧ isLetterCh c2 = true ∧
    b ≠ [] ∧ (∀ c ∈ b, isWordCh c = true) ∧
    ciEq x 'S' = true ∧ ciEq y 'P' = true ∧ CiSqlExt ext

/-! ### C1: directory edges.

The dedup key of an edge is the string `src ++ "--->" ++ tgt`.  As long as no
directory path contains the separator, the key determines the ordered pair;
the lemmas below prove that splitting on the separator is unique. -/

/-- `p` occurs contiguously inside `l`. -/
def OccursIn (p l : List Char) : Prop := ∃ x y, l = x ++ p ++ y

/-- The dedup-key separator `--->` as characters. -/
def sepL : List Char := ['-', '-', '-', '>']

/-- The ordered directory pair of an edge. -/
def edgePair (e : DirectoryDependency) : String × String :=
  (e.sourceDirectory, e.targetDirectory)

/-- The dedup key of an edge (line 324). -/
def edgeKey (e : DirectoryDependency) : String :=
  e.sourceDirectory ++ "\x2d\x2d\x2d>" ++ e.targetDirectory

/-- A directory string free of the separator. -/
def DirOk (s : String) : Prop := ¬ OccursIn sepL s.toList

/-- The pass-2 invariant: the dedup set mirrors the edge keys and is
duplicate-free, edges are never self-loops, and every directory string in
sight is separator-free. -/
def EdgeInv (st : Pass2State) : Prop :=
  st.dependencySet = st.directoryDependencies.map edgeKey ∧
  st.dependencySet.Nodup ∧
  (∀ e ∈ st.directoryDependencies, e.sourceDirectory ≠ e.targetDirectory) ∧
  (∀ pr ∈ st.proceduresMap, DirOk pr.2.directoryPath) ∧
  (∀ e ∈ st.directoryDependencies, DirOk e.sourceDirectory ∧ DirOk e.targetDirectory)

/-- A `(dA, dB)` directory edge is present. -/
def EdgeDone (dA dB : String) (st : Pass2State) : Prop :=
  ∃ e ∈ st.directoryDependencies, e.sourceDirectory = dA ∧ e.targetDirectory = dB

/-- The discovery-pass state, as built inside `analyzeDirectory`. -/
def pass1State (rootPath : String) (filesData : List SqlFile)
    (fsErrors : List String) : ScanState :=
  filesData.foldl (pass1Step rootPath)
    { proceduresMap := [], allDirectoriesSet := [], processingErrors := fsErrors }

/-- The edge-pass starting state, as built inside `analyzeDirectory`. -/
def pass2Init (st1 : ScanState) : Pass2State :=
  { proceduresMap := st1.proceduresMap,
    allDirectoriesSet := st1.allDirectoriesSet,
    processingErrors := st1.processingErrors,
    directoryDependencies := [], dependencySet := [], procedureCalls := [] }

/-- The three-file input refuting the per-pair "iff" of the claim. -/
def c1files : List SqlFile :=
  [ { path := "X/FI_A_SP.sql", content := "EXEC FI_B_SP ; EXEC WI_D_SP" },
    { path := "Y/FI_B_SP.sql", content := "SELECT 1" },
    { path := "Y/WI_D_SP.sql", content := "SELECT 1" } ]

/-- The two-file input of the C1 witness. -/
def c1wfiles : List SqlFile :=
  [ { path := "X/FI_A_SP.sql", content := "EXEC WI_B_SP" },
    { path := "Y/WI_B_SP.sql", content := "SELECT 1" } ]

/-- No remaining block-comment opener has a closer after it. -/
def NoReopen (l : List Char) : Prop :=
  ∀ u v, l = u ++ '/' :: '*' :: v → findCloseCmt v = none

/-- No `--` anywhere. -/
def NoDD (l : List Char) : Prop := ¬ OccursIn ['-', '-'] l

/-- Every whitespace character is a plain space. -/
def WsSp (l : List Char) : Prop := ∀ c ∈ l, isWsChar c = true → c = ' '

/-- Every `;` is followed by a space or the end. -/
def SemiR (l : List Char) : Prop := ∀ d, d ≠ ' ' → ¬ OccursIn [';', d] l

/-- Every `;` is preceded by a space or the start. -/
def SemiL (l : List Char) : Prop := ∀ c, c ≠ ' ' → ¬ OccursIn [c, ';'] l

/-- The head, if any, is not whitespace. -/
def HeadNotWs (l : List Char) : Prop := ∀ c, l.head? = some c → isWsChar c = false

/-- The last character, if any, is not whitespace. -/
def LastNotWs (l : List Char) : Prop := ∀ c, l.getLast? = some c → isWsChar c = false

/-- `collapseWs` after `padSemis`, in not-in-a-run mode. -/
def gC (l : List Char) : List Char := collapseGo false (padSemis l)

/-- `collapseWs` after `padSemis`, in mid-whitespace-run mode. -/
def aC (l : List Char) : List Char := collapseGo true (padSemis l)

/-- The leading space the second collapse adds before a leading `;`. -/
def lsp (r : List Char) : List Char := if r.head? = some ';' then [' '] else []

/-- The trailing space the second collapse adds after a trailing `;`. -/
def tsp (r : List Char) : List Char := if r.getLast? = some ';' then [' '] else []

/-! ### Theorems -/

theorem findCloseCmt_length : ∀ l r, findCloseCmt l = some r → r.length < l.length := by
  intro l
  induction l with
  | nil => intro r h; simp [findCloseCmt] at h
  | cons c rest ih =>
    intro r h
    cases rest with
    | nil => simp [findCloseCmt] at h
    | cons d rest' =>
      rw [findCloseCmt] at h
      by_cases hcd : c = '*' ∧ d = '/'
      · rw [if_pos hcd] at h
        cases h
        simp
        omega
      · rw [if_neg hcd] at h
        have := ih r h
        simp at this ⊢
        omega

/-- C3: on the synthetic 3-ring, `detectCycles` yields exactly one cycle and
it contains all three procedure names; on the 2-node mutual pair it yields
exactly one cycle through exactly 2 distinct procedures (a cycle of length 2,
both names present). -/
theorem c3_cycles_ring_and_pair :
    ((detectCycles ringNodes).length = 1 ∧
     ∀ c ∈ detectCycles ringNodes,
       "FI_A_SP" ∈ c.procedures ∧ "WI_B_SP" ∈ c.procedures ∧ "MG_C_SP" ∈ c.procedures) ∧
    ((detectCycles pairNodes).length = 1 ∧
     ∀ c ∈ detectCycles pairNodes,
       (jsSetDedup c.procedures).length = 2 ∧
       "WI_B_SP" ∈ c.procedures ∧ "FI_A_SP" ∈ c.procedures) := by
  decide

/-! ### Helper lemmas on the pass-2 state transformers -/

theorem addDirectoryEdge_procedureCalls (b : Bool) (si ti : ProcedureInfo) (st : Pass2State) :
    (addDirectoryEdge b si ti st).procedureCalls = st.procedureCalls := by
  unfold addDirectoryEdge
  split
  · dsimp only
    split <;> rfl
  · rfl

theorem resolveTarget_procedureCalls (st : Pass2State) (t : String) :
    (resolveTarget st t).1.procedureCalls = st.procedureCalls := by
  unfold resolveTarget
  split
  · rfl
  · split <;> rfl

theorem processTarget_procedureCalls (b : Bool) (src : String) (si : ProcedureInfo)
    (st : Pass2State) (t : String) :
    (processTarget b src si st t).procedureCalls = st.procedureCalls := by
  unfold processTarget
  dsimp only
  split
  · rw [show ∀ s : Pass2State, ∀ v, ({ s with allDirectoriesSet := v } : Pass2State).procedureCalls
        = s.procedureCalls from fun _ _ => rfl]
    rw [addDirectoryEdge_procedureCalls, resolveTarget_procedureCalls]
  · rw [show ∀ s : Pass2State, ∀ v, ({ s with processingErrors := v } : Pass2State).procedureCalls
        = s.procedureCalls from fun _ _ => rfl]
    rw [resolveTarget_procedureCalls]

theorem foldl_processTarget_procedureCalls (b : Bool) (src : String) (si : ProcedureInfo) :
    ∀ (ts : List String) (st : Pass2State),
      ((ts.foldl (processTarget b src si) st).procedureCalls = st.procedureCalls) := by
  intro ts
  induction ts with
  | nil => intro st; rfl
  | cons t rest ih =>
    intro st
    rw [List.foldl_cons, ih, processTarget_procedureCalls]

/-- C10: whenever pass 2 processes a source procedure named
`WI_PostRepack_PostFuelTransferOut_SP` whose detected calls do not include
`FI_PostFuelInventory_SP`, that name is unconditionally appended to its call
list (first conjunct, over the recorded `procedureCalls` entry); consequently
the output can contain a directory edge corresponding to no call detected in
any file content (second conjunct: a run whose only file yields no detected
calls at all still produces the `Wh -> FI_Domain` edge). -/
theorem c10_wi_postrepack_special_case :
    (∀ (filesData : List SqlFile) (showAll : Bool) (info : ProcedureInfo)
       (st : Pass2State) (fd : SqlFile),
      filesData.find? (fun f => f.path == info.filePath) = some fd →
      "FI_PostFuelInventory_SP" ∉ findExecCalls fd.content →
      (processSource filesData showAll
          ("WI_PostRepack_PostFuelTransferOut_SP", info) st).procedureCalls =
        st.procedureCalls ++
          [{ source := "WI_PostRepack_PostFuelTransferOut_SP",
             targets := findExecCalls fd.content ++ ["FI_PostFuelInventory_SP"],
             fileContent := fd.content }]) ∧
    ((analyzeDirectory "root"
        [{ path := "Wh/WI_PostRepack_PostFuelTransferOut_SP.sql", content := "SELECT 1" }]
        [] true).directoryDependencies =
      [{ sourceDirectory := "Wh", targetDirectory := "FI_Domain", isCrossDomain := true }] ∧
     findExecCalls "SELECT 1" = []) := by
  refine ⟨?_, by decide, by decide⟩
  intro filesData showAll info st fd hfind hnot
  unfold processSource
  simp only [hfind]
  have hc : ((findExecCalls fd.content).contains "FI_PostFuelInventory_SP") = false := by
    simp [List.elem_eq_mem, hnot]
  simp only [hc]
  rw [foldl_processTarget_procedureCalls]
  simp

/-- Witness for C10: the special case fires on a concrete one-file input. -/
theorem c10_wi_postrepack_special_case_witness :
    (processSource [{ path := "f.sql", content := "SELECT 1" }] true
        ("WI_PostRepack_PostFuelTransferOut_SP",
         { id := "WI_PostRepack_PostFuelTransferOut_SP",
           name := "WI_PostRepack_PostFuelTransferOut_SP", domain := "WI",
           filePath := "f.sql", directoryPath := "Wh", lineCount := 1 })
        { proceduresMap := [], allDirectoriesSet := [], processingErrors := [],
          directoryDependencies := [], dependencySet := [], procedureCalls := [] }).procedureCalls =
      ([] : List ProcedureCalls) ++
        [{ source := "WI_PostRepack_PostFuelTransferOut_SP",
           targets := findExecCalls "SELECT 1" ++ ["FI_PostFuelInventory_SP"],
           fileContent := "SELECT 1" }] :=
  c10_wi_postrepack_special_case.1
    [{ path := "f.sql", content := "SELECT 1" }] true
    { id := "WI_PostRepack_PostFuelTransferOut_SP",
      name := "WI_PostRepack_PostFuelTransferOut_SP", domain := "WI",
      filePath := "f.sql", directoryPath := "Wh", lineCount := 1 }
    { proceduresMap := [], allDirectoriesSet := [], processingErrors := [],
      directoryDependencies := [], dependencySet := [], procedureCalls := [] }
    { path := "f.sql", content := "SELECT 1" }
    (by decide) (by decide)

/-! ### Membership survives the final de-duplication -/

theorem mem_jsSetDedup (a : String) : ∀ l : List String, a ∈ jsSetDedup l ↔ a ∈ l := by
  intro l
  induction l with
  | nil => simp [jsSetDedup]
  | cons x rest ih =>
    simp only [jsSetDedup, List.mem_cons, List.mem_filter]
    constructor
    · rintro (rfl | ⟨h1, _⟩)
      · exact Or.inl rfl
      · exact Or.inr (ih.mp h1)
    · rintro (rfl | h)
      · exact Or.inl rfl
      · by_cases hax : a = x
        · exact Or.inl hax
        · refine Or.inr ⟨ih.mpr h, ?_⟩
          simp [hax]

/-- C9: on any input whose original text contains `FI_Post` while the
accumulated detection passes produced no call starting with `FI_Post`,
`findExecCalls` adds the first (case-insensitive) match of
`FI_Post[A-Za-z0-9_]+?_SP` in the original text, and the hard-coded
`FI_PostFuelInventory_SP` when no such match exists — even if that exact name
never occurs in the input. -/
theorem c9_fi_post_fallback (s : String)
    (h1 : containsSub s.toList "FI_Post".toList = true)
    (h2 : (baseCalls s.toList).any (fun c => listStartsWith c "FI_Post".toList) = false) :
    (∀ m, fiPostFirstMatch s.toList = some m → (⟨m⟩ : String) ∈ findExecCalls s) ∧
    (fiPostFirstMatch s.toList = none → "FI_PostFuelInventory_SP" ∈ findExecCalls s) := by
  have hextra : fiPostExtra s.toList (baseCalls s.toList) =
      (match fiPostFirstMatch s.toList with
       | some m => [m]
       | none => ["FI_PostFuelInventory_SP".toList]) := by
    unfold fiPostExtra
    rw [h1, h2]
    simp [fiPostFirstMatch]
  have hmem : ∀ x : List Char, x ∈ fiPostExtra s.toList (baseCalls s.toList) →
      (⟨x⟩ : String) ∈ findExecCalls s := by
    intro x hx
    show (⟨x⟩ : String) ∈ findExecCallsL s.toList
    unfold findExecCallsL
    rw [mem_jsSetDedup]
    exact List.mem_map_of_mem _ (List.mem_append_right _ hx)
  constructor
  · intro m hm
    apply hmem
    rw [hextra, hm]
    exact List.mem_singleton.mpr rfl
  · intro hm
    have := hmem "FI_PostFuelInventory_SP".toList
    simp only [hextra, hm] at this
    exact this (List.mem_singleton.mpr rfl)

/-- Witness for C9 on the concrete input `"FI_Post"`: no detection pass fires,
no `FI_Post..._SP` pattern occurs, and the hard-coded name is added anyway. -/
theorem c9_fi_post_fallback_witness :
    "FI_PostFuelInventory_SP" ∈ findExecCalls "FI_Post" :=
  (c9_fi_post_fallback "FI_Post" (by decide) (by decide)).2 (by decide)

/-- C2 counterexample: the enclosing procedure's own declared name IS returned
by `findExecCalls` (pass 1 matches the recursive `EXEC FI_A_SP` call; only
pass 5 carries the self-reference guard). -/
theorem c2_counterexample :
    extractProcedureNameFromContent c2input = "FI_A_SP" ∧
    "FI_A_SP" ∈ findExecCalls c2input := by
  decide

/-- C2 amended: the self-reference exclusion is a property of pass 5 alone —
no name reported by the fallback scan has its definition in the cleaned text
in any of the three guarded forms.  (The other passes can return the
enclosing procedure's own name, e.g. on a recursive self-call.) -/
theorem c2_pass5_own_name_guard (s : String) (n : List Char)
    (hn : n ∈ pass5Names (removeSqlCommentsL s.toList)) :
    containsSub (removeSqlCommentsL s.toList) ("CREATE PROCEDURE ".toList ++ n) = false ∧
    containsSub (removeSqlCommentsL s.toList) ("CREATE OR ALTER PROCEDURE ".toList ++ n) = false ∧
    containsSub (removeSqlCommentsL s.toList) ("ALTER PROCEDURE ".toList ++ n) = false := by
  unfold pass5Names at hn
  rw [List.mem_filterMap] at hn
  obtain ⟨pr, _, hf⟩ := hn
  dsimp only at hf
  split at hf
  · split at hf
    · cases hf
      rename_i hg _
      simp only [Bool.and_eq_true, Bool.not_eq_true'] at hg
      exact ⟨hg.1.1, hg.1.2, hg.2⟩
    · exact absurd hf (by simp)
  · exact absurd hf (by simp)

/-- Witness for the amended C2 theorem: on `"EXEC AB_X_SP"` pass 5 reports
`AB_X_SP`, and indeed none of the three definition forms occurs. -/
theorem c2_pass5_own_name_guard_witness :
    containsSub (removeSqlCommentsL ("EXEC AB_X_SP" : String).toList)
      ("CREATE PROCEDURE ".toList ++ ("AB_X_SP" : String).toList) = false ∧
    containsSub (removeSqlCommentsL ("EXEC AB_X_SP" : String).toList)
      ("CREATE OR ALTER PROCEDURE ".toList ++ ("AB_X_SP" : String).toList) = false ∧
    containsSub (removeSqlCommentsL ("EXEC AB_X_SP" : String).toList)
      ("ALTER PROCEDURE ".toList ++ ("AB_X_SP" : String).toList) = false :=
  c2_pass5_own_name_guard "EXEC AB_X_SP" ("AB_X_SP" : String).toList (by decide)

/-! ### Characterization of the filename pattern matcher (for C5) -/

theorem orElse_eq_some {α : Type} (a b : Option α) (r : α) :
    (a <|> b) = some r → a = some r ∨ b = some r := by
  cases a with
  | none => intro h; exact Or.inr h
  | some v => intro h; exact Or.inl h

theorem isSome_orElse_of_left {α : Type} (a b : Option α) :
    a.isSome = true → (a <|> b).isSome = true := by
  cases a <;> simp

theorem isSome_orElse_of_right {α : Type} (a b : Option α) :
    b.isSome = true → (a <|> b).isSome = true := by
  cases a <;> simp

theorem pLitCi_some {β : Type} :
    ∀ (lit s : List Char) (k : List Char → Option β) (r : β),
      pLitCi lit s k = some r →
      ∃ pre rest, s = pre ++ rest ∧ CiMatches lit pre ∧ k rest = some r := by
  intro lit
  induction lit with
  | nil =>
    intro s k r h
    exact ⟨[], s, rfl, List.Forall₂.nil, h⟩
  | cons c cs ih =>
    intro s k r h
    cases s with
    | nil => exact absurd h (by simp [pLitCi])
    | cons d ds =>
      unfold pLitCi at h
      by_cases hcd : ciEq c d = true
      · rw [if_pos hcd] at h
        obtain ⟨pre, rest, hs, hf, hk⟩ := ih ds k r h
        exact ⟨d :: pre, rest, by rw [hs]; rfl, List.Forall₂.cons hcd hf, hk⟩
      · rw [if_neg hcd] at h
        exact absurd h (by simp)

theorem pLitCi_complete {β : Type} :
    ∀ (lit pre rest : List Char) (k : List Char → Option β),
      CiMatches lit pre → pLitCi lit (pre ++ rest) k = k rest := by
  intro lit pre rest k hf
  induction hf with
  | nil => rfl
  | cons hcd _ ih =>
    rw [List.cons_append]
    simp only [pLitCi]
    rw [if_pos hcd]
    exact ih

theorem pEnd_some {β : Type} (s : List Char) (k : List Char → Option β) (r : β) :
    pEnd s k = some r → s = [] ∧ k [] = some r := by
  cases s with
  | nil => intro h; exact ⟨rfl, h⟩
  | cons c rest => intro h; exact absurd h (by simp [pEnd])

theorem capSPClose_some {β : Type} (acc s : List Char)
    (k : List Char → List Char → Option β) (r : β) :
    capSPClose acc s k = some r →
    ∃ x y srem, s = '_' :: x :: y :: srem ∧ ciEq x 'S' = true ∧ ciEq y 'P' = true ∧
      k (acc ++ ['_', x, y]) srem = some r := by
  intro h
  unfold capSPClose at h
  split at h
  · rename_i x y srem
    by_cases hxy : (ciEq x 'S' && ciEq y 'P') = true
    · rw [if_pos hxy] at h
      rw [Bool.and_eq_true] at hxy
      exact ⟨x, y, srem, rfl, hxy.1, hxy.2, h⟩
    · rw [if_neg hxy] at h
      exact absurd h (by simp)
  · exact absurd h (by simp)

theorem capSPBody_some {β : Type} (k : List Char → List Char → Option β) :
    ∀ (s acc : List Char) (r : β), capSPBody acc s k = some r →
      ∃ b x y srem, s = b ++ '_' :: x :: y :: srem ∧ b ≠ [] ∧
        (∀ c ∈ b, isWordCh c = true) ∧ ciEq x 'S' = true ∧ ciEq y 'P' = true ∧
        k (acc ++ b ++ ['_', x, y]) srem = some r := by
  intro s
  induction s with
  | nil => intro acc r h; exact absurd h (by simp [capSPBody])
  | cons c rest ih =>
    intro acc r h
    unfold capSPBody at h
    by_cases hw : isWordCh c = true
    · rw [if_pos hw] at h
      rcases orElse_eq_some _ _ _ h with hclose | hbody
      · obtain ⟨x, y, srem, hs, hx, hy, hk⟩ := capSPClose_some _ _ _ _ hclose
        refine ⟨[c], x, y, srem, by rw [hs]; rfl, by simp, ?_, hx, hy, ?_⟩
        · intro u hu
          rw [List.mem_singleton] at hu
          rw [hu]; exact hw
        · rw [show acc ++ [c] ++ ['_', x, y] = acc ++ [c] ++ ['_', x, y] from rfl]
          exact hk
      · obtain ⟨b, x, y, srem, hs, hb, hbw, hx, hy, hk⟩ := ih (acc ++ [c]) r hbody
        refine ⟨c :: b, x, y, srem, by rw [hs]; rfl, by simp, ?_, hx, hy, ?_⟩
        · intro u hu
          rcases List.mem_cons.mp hu with rfl | hu'
          · exact hw
          · exact hbw u hu'
        · rw [show acc ++ (c :: b) = acc ++ [c] ++ b by simp]
          exact hk
    · rw [if_neg hw] at h
      exact absurd h (by simp)

theorem capSPBody_complete {β : Type} (k : List Char → List Char → Option β) :
    ∀ (b acc : List Char) (x y : Char) (srem : List Char),
      b ≠ [] → (∀ c ∈ b, isWordCh c = true) → ciEq x 'S' = true → ciEq y 'P' = true →
      (k (acc ++ b ++ ['_', x, y]) srem).isSome = true →
      (capSPBody acc (b ++ '_' :: x :: y :: srem) k).isSome = true := by
  intro b
  induction b with
  | nil => intro acc x y srem hne; exact absurd rfl hne
  | cons c b' ih =>
    intro acc x y srem _ hw hx hy hk
    rw [List.cons_append]
    simp only [capSPBody]
    rw [if_pos (hw c (List.mem_cons_self c b'))]
    cases b' with
    | nil =>
      apply isSome_orElse_of_left
      simp only [List.nil_append, capSPClose]
      rw [if_pos (by rw [Bool.and_eq_true]; exact ⟨hx, hy⟩)]
      simpa using hk
    | cons c2 b'' =>
      apply isSome_orElse_of_right
      apply ih (acc ++ [c]) x y srem (by simp)
        (fun u hu => hw u (List.mem_cons_of_mem c hu)) hx hy
      rw [show acc ++ [c] ++ (c2 :: b'') = acc ++ (c :: c2 :: b'') by simp]
      exact hk

theorem ciMatches_sql_shape (pre : List Char)
    (h : CiMatches ['.', 's', 'q', 'l'] pre) :
    ∃ p q u v, pre = [p, q, u, v] ∧ ciEq '.' p = true ∧ ciEq 's' q = true ∧
      ciEq 'q' u = true ∧ ciEq 'l' v = true := by
  unfold CiMatches at h
  rw [List.forall₂_cons_left_iff] at h
  obtain ⟨p, pre1, hp, h, rfl⟩ := h
  rw [List.forall₂_cons_left_iff] at h
  obtain ⟨q, pre2, hq, h, rfl⟩ := h
  rw [List.forall₂_cons_left_iff] at h
  obtain ⟨u, pre3, hu, h, rfl⟩ := h
  rw [List.forall₂_cons_left_iff] at h
  obtain ⟨v, pre4, hv, h, rfl⟩ := h
  rw [List.forall₂_nil_left_iff] at h
  subst h
  exact ⟨p, q, u, v, rfl, hp, hq, hu, hv⟩

theorem spNameParts_some (f d m : List Char) :
    spNameParts f = some (d, m) →
    ∃ c1 c2 b x y srem,
      f = c1 :: c2 :: '_' :: (b ++ '_' :: x :: y :: srem) ∧
      isLetterCh c1 = true ∧ isLetterCh c2 = true ∧
      d = [c1, c2] ∧ m = b ++ ['_', x, y] ∧
      b ≠ [] ∧ (∀ c ∈ b, isWordCh c = true) ∧ ciEq x 'S' = true ∧ ciEq y 'P' = true ∧
      CiSqlExt srem := by
  intro h
  unfold spNameParts at h
  split at h
  · rename_i c1 c2 rest
    by_cases hl : (isLetterCh c1 && isLetterCh c2) = true
    · rw [if_pos hl] at h
      rw [Bool.and_eq_true] at hl
      obtain ⟨b, x, y, srem, hs, hb, hbw, hx, hy, hk⟩ := capSPBody_some _ rest [] _ h
      unfold pOpt at hk
      rcases orElse_eq_some _ _ _ hk with hlit | hdirect
      · obtain ⟨pre, rest2, hsrem, hci, hk2⟩ := pLitCi_some _ _ _ _ hlit
        obtain ⟨hr2, hsome⟩ := pEnd_some _ _ _ hk2
        simp only [Option.some.injEq, Prod.mk.injEq] at hsome
        rw [show (".sql" : String).toList = ['.', 's', 'q', 'l'] from rfl] at hci
        obtain ⟨p, q, u, v, hpre, hp, hq, hu, hv⟩ := ciMatches_sql_shape _ hci
        refine ⟨c1, c2, b, x, y, srem, by rw [hs], hl.1, hl.2, hsome.1.symm, ?_, hb, hbw, hx, hy, ?_⟩
        · rw [← hsome.2]; simp
        · right
          exact ⟨p, q, u, v, by rw [hsrem, hr2, hpre]; simp, hp, hq, hu, hv⟩
      · obtain ⟨hr2, hsome⟩ := pEnd_some _ _ _ hdirect
        simp only [Option.some.injEq, Prod.mk.injEq] at hsome
        refine ⟨c1, c2, b, x, y, srem, by rw [hs], hl.1, hl.2, hsome.1.symm, ?_, hb, hbw, hx, hy, Or.inl hr2⟩
        rw [← hsome.2]; simp
    · rw [if_neg hl] at h
      exact absurd h (by simp)
  · exact absurd h (by simp)

theorem spNameParts_complete (c1 c2 : Char) (b : List Char) (x y : Char) (srem : List Char)
    (h1 : isLetterCh c1 = true) (h2 : isLetterCh c2 = true)
    (hb : b ≠ []) (hbw : ∀ c ∈ b, isWordCh c = true)
    (hx : ciEq x 'S' = true) (hy : ciEq y 'P' = true) (hs : CiSqlExt srem) :
    (spNameParts (c1 :: c2 :: '_' :: (b ++ '_' :: x :: y :: srem))).isSome = true := by
  simp only [spNameParts]
  rw [if_pos (by rw [Bool.and_eq_true]; exact ⟨h1, h2⟩)]
  apply capSPBody_complete _ b [] x y srem hb hbw hx hy
  dsimp only
  unfold pOpt
  rcases hs with rfl | ⟨p, q, u, v, rfl, hp, hq, hu, hv⟩
  · apply isSome_orElse_of_right
    simp [pEnd]
  · apply isSome_orElse_of_left
    rw [show (".sql" : String).toList = ['.', 's', 'q', 'l'] from rfl]
    rw [show ([p, q, u, v] : List Char) = [p, q, u, v] ++ ([] : List Char) by simp]
    rw [pLitCi_complete ['.', 's', 'q', 'l'] [p, q, u, v] [] _
      (List.Forall₂.cons hp (List.Forall₂.cons hq
        (List.Forall₂.cons hu (List.Forall₂.cons hv List.Forall₂.nil))))]
    simp [pEnd]

/-- C5 counterexample: on the lower-case filename `fi_Test_SP` the resolver
`extractSpDetailsFromName` returns `name = "fi_Test_SP"` — the domain prefix
inside `name` is NOT upper-cased (only the separate `domain` field is). -/
theorem c5_counterexample :
    extractSpDetailsFromName "fi_Test_SP" =
      some { name := "fi_Test_SP", domain := "FI" } ∧
    ({ name := "fi_Test_SP", domain := "FI" } : SpDetails).name ≠ "FI_Test_SP" := by
  decide

/-- C5 amended: (1) a filename is accepted iff it matches the spec-side
convention; (2) on acceptance, `extractSpDetailsFromName` returns the
upper-cased 2-letter `domain` and a `name` that is the filename with the
optional `.sql` suffix removed and the case PRESERVED as written, while
`extractProcedureInfo` (chain walker) additionally upper-cases the first two
characters inside `name`; (3) both resolvers reject exactly the same
filenames; (4) a rejected file is silently skipped by the discovery pass (no
record, no error). -/
theorem c5_name_assembly :
    (∀ f : String, specConventionMatch f ↔ (extractSpDetailsFromName f).isSome = true) ∧
    (∀ (f : String) (r : SpDetails), extractSpDetailsFromName f = some r →
      r.domain.toList = (f.toList.take 2).map Char.toUpper ∧
      (∃ ext : List Char, f.toList = r.name.toList ++ ext ∧ CiSqlExt ext) ∧
      r.name.toList.take 2 = f.toList.take 2 ∧
      extractProcedureInfo f =
        some { name := ⟨(r.name.toList.take 2).map Char.toUpper ++ r.name.toList.drop 2⟩,
               domain := r.domain }) ∧
    (∀ f : String, extractSpDetailsFromName f = none → extractProcedureInfo f = none) ∧
    (∀ (root : String) (st : ScanState) (file : SqlFile),
      extractSpDetailsFromName (pathBasename file.path) = none →
      pass1Step root st file = st) := by
  refine ⟨?_, ?_, ?_, ?_⟩
  · intro f
    constructor
    · rintro ⟨c1, c2, b, x, y, ext, hf, h1, h2, hb, hbw, hx, hy, hext⟩
      unfold extractSpDetailsFromName
      rw [hf]
      have := spNameParts_complete c1 c2 b x y ext h1 h2 hb hbw hx hy hext
      cases hsp : spNameParts (c1 :: c2 :: '_' :: (b ++ '_' :: x :: y :: ext)) with
      | none => rw [hsp] at this; exact absurd this (by simp)
      | some pr => cases pr; simp
    · intro h
      rw [Option.isSome_iff_exists] at h
      obtain ⟨r, hr⟩ := h
      unfold extractSpDetailsFromName at hr
      cases hsp : spNameParts f.toList with
      | none => rw [hsp] at hr; exact absurd hr (by simp)
      | some pr =>
        obtain ⟨c1, c2, b, x, y, srem, hf, h1, h2, _, _, hb, hbw, hx, hy, hext⟩ :=
          spNameParts_some f.toList pr.1 pr.2 (by rw [hsp])
        exact ⟨c1, c2, b, x, y, srem, hf, h1, h2, hb, hbw, hx, hy, hext⟩
  · intro f r hr
    unfold extractSpDetailsFromName at hr
    cases hsp : spNameParts f.toList with
    | none => rw [hsp] at hr; exact absurd hr (by simp)
    | some pr =>
      rw [hsp] at hr
      obtain ⟨c1, c2, b, x, y, srem, hf, _, _, hd, hm, _, _, _, _, hext⟩ :=
        spNameParts_some f.toList pr.1 pr.2 (by rw [hsp])
      have hpr : pr = (pr.1, pr.2) := rfl
      rw [hpr, hd, hm] at hsp hr
      simp only [Option.some.injEq] at hr
      subst hr
      have hname : (⟨[c1, c2] ++ '_' :: (b ++ ['_', x, y])⟩ : String).toList =
          [c1, c2] ++ '_' :: (b ++ ['_', x, y]) := rfl
      refine ⟨?_, ⟨srem, ?_, hext⟩, ?_, ?_⟩
      · rw [hf]; rfl
      · rw [hf, hname]; simp
      · rw [hf, hname]; rfl
      · unfold extractProcedureInfo
        rw [hsp, hname]
        rfl
  · intro f hnone
    unfold extractSpDetailsFromName at hnone
    unfold extractProcedureInfo
    cases hsp : spNameParts f.toList with
    | none => rfl
    | some pr =>
      rw [hsp] at hnone
      cases pr
      exact absurd hnone (by simp)
  · intro root st file hnone
    unfold pass1Step
    dsimp only
    rw [hnone]

/-- Witness for the amended C5 theorem at the concrete filename
`fi_Test_SP.sql`. -/
theorem c5_name_assembly_witness :
    ({ name := "fi_Test_SP", domain := "FI" } : SpDetails).domain.toList =
      (("fi_Test_SP.sql" : String).toList.take 2).map Char.toUpper ∧
    (∃ ext : List Char, ("fi_Test_SP.sql" : String).toList =
      ({ name := "fi_Test_SP", domain := "FI" } : SpDetails).name.toList ++ ext ∧ CiSqlExt ext) ∧
    ({ name := "fi_Test_SP", domain := "FI" } : SpDetails).name.toList.take 2 =
      ("fi_Test_SP.sql" : String).toList.take 2 ∧
    extractProcedureInfo "fi_Test_SP.sql" =
      some { name := ⟨(({ name := "fi_Test_SP", domain := "FI" } : SpDetails).name.toList.take 2).map
                        Char.toUpper ++
                      ({ name := "fi_Test_SP", domain := "FI" } : SpDetails).name.toList.drop 2⟩,
             domain := ({ name := "fi_Test_SP", domain := "FI" } : SpDetails).domain } :=
  c5_name_assembly.2.1 "fi_Test_SP.sql" { name := "fi_Test_SP", domain := "FI" } (by decide)

/-! ### C6: virtual records for unresolved targets -/

theorem addDirectoryEdge_proceduresMap (b : Bool) (si ti : ProcedureInfo) (st : Pass2State) :
    (addDirectoryEdge b si ti st).proceduresMap = st.proceduresMap := by
  unfold addDirectoryEdge
  split
  · dsimp only
    split <;> rfl
  · rfl

theorem addDirectoryEdge_processingErrors (b : Bool) (si ti : ProcedureInfo) (st : Pass2State) :
    (addDirectoryEdge b si ti st).processingErrors = st.processingErrors := by
  unfold addDirectoryEdge
  split
  · dsimp only
    split <;> rfl
  · rfl

/-- C6: a detected call target matching the naming pattern but absent from
the registry makes `processTarget` append exactly one virtual record (with
`lineCount = 0`, the synthetic `[Virtual] <name>.sql` path, the name's
2-letter prefix as domain, and as directory an already-known same-domain
record's directory, else the synthetic `<DOMAIN>_Domain`) and exactly one
non-fatal note to the errors list; `processTarget` is a total function, so
the analysis continues. -/
theorem c6_virtual_record (showAll : Bool) (src : String) (srcInfo : ProcedureInfo)
    (st : Pass2State) (t : String)
    (habsent : lookupProc st.proceduresMap t = none)
    (hpat : matchesProcPattern t = true) :
    ∃ vrec : ProcedureInfo,
      (processTarget showAll src srcInfo st t).proceduresMap = st.proceduresMap ++ [(t, vrec)] ∧
      (processTarget showAll src srcInfo st t).processingErrors =
        st.processingErrors ++ [virtualNote t] ∧
      vrec.lineCount = 0 ∧
      vrec.filePath = "[Virtual] " ++ t ++ ".sql" ∧
      vrec.domain = (⟨t.toList.take 2⟩ : String) ∧
      ((∃ p ∈ st.proceduresMap.map Prod.snd,
          p.domain = vrec.domain ∧ vrec.directoryPath = p.directoryPath) ∨
       ((∀ p ∈ st.proceduresMap.map Prod.snd, p.domain ≠ vrec.domain) ∧
         vrec.directoryPath = vrec.domain ++ "_Domain")) := by
  have hres : resolveTarget st t =
      ({ st with
          proceduresMap := st.proceduresMap ++ [(t, mkVirtualRecord st.proceduresMap t)],
          processingErrors := st.processingErrors ++ [virtualNote t] },
       some (mkVirtualRecord st.proceduresMap t)) := by
    unfold resolveTarget
    rw [habsent]
    dsimp only
    rw [if_pos hpat]
  refine ⟨mkVirtualRecord st.proceduresMap t, ?_, ?_, rfl, rfl, ?_, ?_⟩
  · unfold processTarget
    rw [hres]
    dsimp only
    rw [show ∀ s : Pass2State, ∀ v, ({ s with allDirectoriesSet := v } : Pass2State).proceduresMap
        = s.proceduresMap from fun _ _ => rfl]
    rw [addDirectoryEdge_proceduresMap]
  · unfold processTarget
    rw [hres]
    dsimp only
    rw [show ∀ s : Pass2State, ∀ v, ({ s with allDirectoriesSet := v } : Pass2State).processingErrors
        = s.processingErrors from fun _ _ => rfl]
    rw [addDirectoryEdge_processingErrors]
  · rfl
  · unfold mkVirtualRecord
    dsimp only
    cases hf : (st.proceduresMap.map Prod.snd).find?
        (fun p => p.domain == (⟨t.toList.take 2⟩ : String)) with
    | some p =>
      left
      refine ⟨p, List.mem_of_find?_eq_some hf, ?_, rfl⟩
      have := List.find?_some hf
      exact eq_of_beq this
    | none =>
      right
      refine ⟨?_, rfl⟩
      intro p hp
      have := List.find?_eq_none.mp hf p hp
      intro hcontra
      exact this (by rw [hcontra]; exact beq_self_eq_true _)

/-- Witness for C6: a fresh target `QQ_Missing_SP` on the empty registry. -/
theorem c6_virtual_record_witness :
    ∃ vrec : ProcedureInfo,
      (processTarget true "FI_A_SP"
        { id := "FI_A_SP", name := "FI_A_SP", domain := "FI", filePath := "A/FI_A_SP.sql",
          directoryPath := "A", lineCount := 1 }
        { proceduresMap := [], allDirectoriesSet := [], processingErrors := [],
          directoryDependencies := [], dependencySet := [], procedureCalls := [] }
        "QQ_Missing_SP").proceduresMap = [] ++ [("QQ_Missing_SP", vrec)] ∧
      (processTarget true "FI_A_SP"
        { id := "FI_A_SP", name := "FI_A_SP", domain := "FI", filePath := "A/FI_A_SP.sql",
          directoryPath := "A", lineCount := 1 }
        { proceduresMap := [], allDirectoriesSet := [], processingErrors := [],
          directoryDependencies := [], dependencySet := [], procedureCalls := [] }
        "QQ_Missing_SP").processingErrors = [] ++ [virtualNote "QQ_Missing_SP"] ∧
      vrec.lineCount = 0 ∧
      vrec.filePath = "[Virtual] " ++ "QQ_Missing_SP" ++ ".sql" ∧
      vrec.domain = (⟨("QQ_Missing_SP" : String).toList.take 2⟩ : String) ∧
      ((∃ p ∈ ([] : List (String × ProcedureInfo)).map Prod.snd,
          p.domain = vrec.domain ∧ vrec.directoryPath = p.directoryPath) ∨
       ((∀ p ∈ ([] : List (String × ProcedureInfo)).map Prod.snd, p.domain ≠ vrec.domain) ∧
         vrec.directoryPath = vrec.domain ++ "_Domain")) :=
  c6_virtual_record true "FI_A_SP"
    { id := "FI_A_SP", name := "FI_A_SP", domain := "FI", filePath := "A/FI_A_SP.sql",
      directoryPath := "A", lineCount := 1 }
    { proceduresMap := [], allDirectoriesSet := [], processingErrors := [],
      directoryDependencies := [], dependencySet := [], procedureCalls := [] }
    "QQ_Missing_SP" (by decide) (by decide)

/-! ### C7: duplicate names in the discovery pass -/

theorem find?_append_of_some {α : Type} (p : α → Bool) (m m' : List α) (v : α)
    (h : m.find? p = some v) : (m ++ m').find? p = some v := by
  induction m with
  | nil => exact absurd h (by simp)
  | cons a rest ih =>
    rw [List.cons_append]
    by_cases hp : p a = true
    · rw [List.find?_cons_of_pos _ hp] at h ⊢
      exact h
    · rw [List.find?_cons_of_neg _ hp] at h ⊢
      exact ih h

theorem lookupProc_append (m m' : List (String × ProcedureInfo)) (n : String)
    (v : ProcedureInfo) (h : lookupProc m n = some v) : lookupProc (m ++ m') n = some v := by
  unfold lookupProc at h ⊢
  cases hf : m.find? (fun pr => pr.1 == n) with
  | none => rw [hf] at h; exact absurd h (by simp)
  | some pr =>
    rw [hf] at h
    rw [find?_append_of_some _ _ _ _ hf]
    exact h

theorem pass1Step_lookup_stable (root : String) (st : ScanState) (file : SqlFile)
    (n : String) (v : ProcedureInfo) (h : lookupProc st.proceduresMap n = some v) :
    lookupProc (pass1Step root st file).proceduresMap n = some v := by
  unfold pass1Step
  dsimp only
  cases hd : extractSpDetailsFromName (pathBasename file.path) with
  | none => exact h
  | some d =>
    dsimp only
    cases hl : lookupProc st.proceduresMap d.name with
    | some old => exact h
    | none => exact lookupProc_append _ _ _ _ h

theorem pass1_foldl_lookup_stable (root : String) :
    ∀ (files : List SqlFile) (st : ScanState) (n : String) (v : ProcedureInfo),
      lookupProc st.proceduresMap n = some v →
      lookupProc ((files.foldl (pass1Step root) st)).proceduresMap n = some v := by
  intro files
  induction files with
  | nil => intro st n v h; exact h
  | cons f rest ih =>
    intro st n v h
    rw [List.foldl_cons]
    exact ih _ _ _ (pass1Step_lookup_stable root st f n v h)

/-- C7: when a file resolves to an already-registered name, the discovery
pass keeps the first-seen record unchanged, appends exactly the duplicate
warning (which names both file paths), and the remainder of the scan — over
any further files — still resolves the name to the first-seen record. -/
theorem c7_duplicate_first_seen (root : String) (st : ScanState) (file : SqlFile)
    (d : SpDetails) (old : ProcedureInfo)
    (hres : extractSpDetailsFromName (pathBasename file.path) = some d)
    (hdup : lookupProc st.proceduresMap d.name = some old) :
    (pass1Step root st file).proceduresMap = st.proceduresMap ∧
    (pass1Step root st file).processingErrors =
      st.processingErrors ++ [dupWarning d.name old.filePath file.path] ∧
    ∀ files' : List SqlFile,
      lookupProc ((files'.foldl (pass1Step root) (pass1Step root st file)).proceduresMap) d.name =
        some old := by
  have hstep : (pass1Step root st file).proceduresMap = st.proceduresMap ∧
      (pass1Step root st file).processingErrors =
        st.processingErrors ++ [dupWarning d.name old.filePath file.path] := by
    unfold pass1Step
    dsimp only
    rw [hres]
    dsimp only
    rw [hdup]
    exact ⟨rfl, rfl⟩
  refine ⟨hstep.1, hstep.2, ?_⟩
  intro files'
  apply pass1_foldl_lookup_stable
  rw [hstep.1]
  exact hdup

/-- Witness for C7: the same file scanned twice. -/
theorem c7_duplicate_first_seen_witness :
    (pass1Step "root"
        (pass1Step "root" { proceduresMap := [], allDirectoriesSet := [], processingErrors := [] }
          { path := "A/FI_One_SP.sql", content := "SELECT 1" })
        { path := "B/FI_One_SP.sql", content := "SELECT 2" }).proceduresMap =
      (pass1Step "root" { proceduresMap := [], allDirectoriesSet := [], processingErrors := [] }
        { path := "A/FI_One_SP.sql", content := "SELECT 1" }).proceduresMap ∧
    (pass1Step "root"
        (pass1Step "root" { proceduresMap := [], allDirectoriesSet := [], processingErrors := [] }
          { path := "A/FI_One_SP.sql", content := "SELECT 1" })
        { path := "B/FI_One_SP.sql", content := "SELECT 2" }).processingErrors =
      (pass1Step "root" { proceduresMap := [], allDirectoriesSet := [], processingErrors := [] }
        { path := "A/FI_One_SP.sql", content := "SELECT 1" }).processingErrors ++
        [dupWarning "FI_One_SP"
          ({ id := "FI_One_SP", name := "FI_One_SP", domain := "FI",
             filePath := "A/FI_One_SP.sql", directoryPath := "A",
             lineCount := 1 } : ProcedureInfo).filePath "B/FI_One_SP.sql"] ∧
    ∀ files' : List SqlFile,
      lookupProc ((files'.foldl (pass1Step "root")
          (pass1Step "root"
            (pass1Step "root" { proceduresMap := [], allDirectoriesSet := [], processingErrors := [] }
              { path := "A/FI_One_SP.sql", content := "SELECT 1" })
            { path := "B/FI_One_SP.sql", content := "SELECT 2" })).proceduresMap) "FI_One_SP" =
        some { id := "FI_One_SP", name := "FI_One_SP", domain := "FI",
               filePath := "A/FI_One_SP.sql", directoryPath := "A", lineCount := 1 } :=
  c7_duplicate_first_seen "root"
    (pass1Step "root" { proceduresMap := [], allDirectoriesSet := [], processingErrors := [] }
      { path := "A/FI_One_SP.sql", content := "SELECT 1" })
    { path := "B/FI_One_SP.sql", content := "SELECT 2" }
    { name := "FI_One_SP", domain := "FI" }
    { id := "FI_One_SP", name := "FI_One_SP", domain := "FI",
      filePath := "A/FI_One_SP.sql", directoryPath := "A", lineCount := 1 }
    (by decide) (by decide)

theorem append_eq_append_shorter :
    ∀ (a c u v : List Char), a ++ u = c ++ v → a.length ≤ c.length →
      ∃ t, c = a ++ t ∧ u = t ++ v := by
  intro a
  induction a with
  | nil =>
    intro c u v h _
    exact ⟨c, rfl, h⟩
  | cons x a' ih =>
    intro c u v h hlen
    cases c with
    | nil => simp at hlen
    | cons y c' =>
      rw [List.cons_append, List.cons_append] at h
      injection h with h1 h2
      obtain ⟨t, hc, hu⟩ := ih c' u v h2 (by simpa using hlen)
      exact ⟨t, by rw [List.cons_append, hc, h1], hu⟩

theorem sep_split_unique_le (a b c d : List Char)
    (hc : ¬ OccursIn sepL c)
    (hlen : a.length ≤ c.length)
    (h : a ++ sepL ++ b = c ++ sepL ++ d) : a = c ∧ b = d := by
  rw [List.append_assoc, List.append_assoc] at h
  obtain ⟨t, hcat, hrest⟩ := append_eq_append_shorter a c (sepL ++ b) (sepL ++ d) h hlen
  by_cases ht : t = []
  · subst ht
    simp at hcat
    subst hcat
    refine ⟨rfl, ?_⟩
    simpa using hrest
  · exfalso
    by_cases hlen4 : 4 ≤ t.length
    · obtain ⟨t', hts, _⟩ := append_eq_append_shorter sepL t b (sepL ++ d) (by
        rw [← hrest]) (by simpa [sepL] using hlen4)
      exact hc ⟨a, t', by rw [hcat, hts, ← List.append_assoc]⟩
    · have htpre : ∃ w, sepL = t ++ w := by
        obtain ⟨w, hw, _⟩ := append_eq_append_shorter t sepL (sepL ++ d) b
          (by rw [hrest]) (by simp [sepL]; omega)
        exact ⟨w, hw⟩
      obtain ⟨w, hw⟩ := htpre
      have htake : t = sepL.take t.length := by
        rw [hw, List.take_left]
      have hlen13 : t.length = 1 ∨ t.length = 2 ∨ t.length = 3 := by
        have h0 : t.length ≠ 0 := fun h0 => ht (List.length_eq_zero.mp h0)
        omega
      rcases hlen13 with h1 | h2 | h3
      · rw [h1] at htake
        rw [show sepL.take 1 = ['-'] from rfl] at htake
        rw [htake] at hrest
        simp [sepL] at hrest
      · rw [h2] at htake
        rw [show sepL.take 2 = ['-', '-'] from rfl] at htake
        rw [htake] at hrest
        simp [sepL] at hrest
      · rw [h3] at htake
        rw [show sepL.take 3 = ['-', '-', '-'] from rfl] at htake
        rw [htake] at hrest
        simp [sepL] at hrest

theorem sep_split_unique (a b c d : List Char)
    (ha : ¬ OccursIn sepL a) (hc : ¬ OccursIn sepL c)
    (h : a ++ sepL ++ b = c ++ sepL ++ d) : a = c ∧ b = d := by
  rcases Nat.le_total a.length c.length with hle | hle
  · exact sep_split_unique_le a b c d hc hle h
  · obtain ⟨h1, h2⟩ := sep_split_unique_le c d a b ha hle h.symm
    exact ⟨h1.symm, h2.symm⟩

/-- Key determines pair, for separator-free directories. -/
theorem edgeKey_inj (e e' : DirectoryDependency)
    (he : ¬ OccursIn sepL e.sourceDirectory.toList)
    (he' : ¬ OccursIn sepL e'.sourceDirectory.toList)
    (h : edgeKey e = edgeKey e') : edgePair e = edgePair e' := by
  unfold edgeKey at h
  have hl : e.sourceDirectory.toList ++ sepL ++ e.targetDirectory.toList =
      e'.sourceDirectory.toList ++ sepL ++ e'.targetDirectory.toList := by
    have := congrArg String.toList h
    simpa [String.toList, String.data_append, sepL] using this
  obtain ⟨h1, h2⟩ := sep_split_unique _ _ _ _ he he' hl
  unfold edgePair
  rw [show e.sourceDirectory = e'.sourceDirectory from by
        apply String.ext; exact h1,
      show e.targetDirectory = e'.targetDirectory from by
        apply String.ext; exact h2]

theorem dirOk_of_no_gt (s : String)
    (h : s.toList.all (fun c => c != '>') = true) : DirOk s := by
  rintro ⟨x, y, hxy⟩
  have hmem : '>' ∈ s.toList := by
    rw [hxy]
    simp [sepL]
  have := List.all_eq_true.mp h '>' hmem
  simp at this

theorem lookupProc_mem (m : List (String × ProcedureInfo)) (n : String)
    (v : ProcedureInfo) (h : lookupProc m n = some v) : ∃ pr ∈ m, pr.2 = v := by
  unfold lookupProc at h
  cases hf : m.find? (fun pr => pr.1 == n) with
  | none => rw [hf] at h; simp at h
  | some pr =>
    rw [hf] at h
    simp at h
    exact ⟨pr, List.mem_of_find?_eq_some hf, h⟩

theorem addDirectoryEdge_inv (b : Bool) (si ti : ProcedureInfo) (st : Pass2State)
    (hinv : EdgeInv st) (hsi : DirOk si.directoryPath) (hti : DirOk ti.directoryPath) :
    EdgeInv (addDirectoryEdge b si ti st) := by
  obtain ⟨h1, h2, h3, h4, h5⟩ := hinv
  unfold addDirectoryEdge
  split
  · dsimp only
    split
    · rename_i hguard
      rw [Bool.and_eq_true, Bool.not_eq_true'] at hguard
      obtain ⟨hnotin, hne⟩ := hguard
      refine ⟨?_, ?_, ?_, h4, ?_⟩
      · dsimp only
        rw [h1, List.map_append]
        rfl
      · dsimp only
        rw [List.nodup_append]
        refine ⟨h2, List.nodup_singleton _, ?_⟩
        intro a ha hb
        rw [List.mem_singleton] at hb
        subst hb
        have : st.dependencySet.contains
            (si.directoryPath ++ "\x2d\x2d\x2d>" ++ ti.directoryPath) = true := by
          simp [List.elem_eq_mem]
          exact ha
        rw [hnotin] at this
        cases this
      · intro e he
        dsimp only at he
        rw [List.mem_append, List.mem_singleton] at he
        rcases he with he | he
        · exact h3 e he
        · subst he
          dsimp only
          intro hcontra
          rw [hcontra] at hne
          simp at hne
      · intro e he
        dsimp only at he
        rw [List.mem_append, List.mem_singleton] at he
        rcases he with he | he
        · exact h5 e he
        · subst he
          exact ⟨hsi, hti⟩
    · exact ⟨h1, h2, h3, h4, h5⟩
  · exact ⟨h1, h2, h3, h4, h5⟩

theorem matchesProcPattern_shape (t : String) (h : matchesProcPattern t = true) :
    ∃ c1 c2 rest, t.toList = c1 :: c2 :: '_' :: rest ∧
      isUpperCh c1 = true ∧ isUpperCh c2 = true := by
  unfold matchesProcPattern at h
  split at h
  · rename_i c1 c2 rest heq
    split at h
    · rename_i hup
      rw [Bool.and_eq_true] at hup
      exact ⟨c1, c2, rest, heq, hup.1, hup.2⟩
    · cases h
  · cases h

theorem upper_no_gt (c : Char) (h : isUpperCh c = true) : (c != '>') = true := by
  unfold isUpperCh at h
  rw [Bool.and_eq_true, decide_eq_true_iff, decide_eq_true_iff] at h
  have hA : ('A' : Char) ≤ c := h.1
  simp only [bne_iff_ne, ne_eq]
  intro hc
  subst hc
  exact absurd hA (by decide)

theorem mkVirtualRecord_dirOk (m : List (String × ProcedureInfo)) (t : String)
    (hm : ∀ pr ∈ m, DirOk pr.2.directoryPath)
    (hpat : matchesProcPattern t = true) :
    DirOk (mkVirtualRecord m t).directoryPath := by
  unfold mkVirtualRecord
  dsimp only
  cases hf : (m.map Prod.snd).find? (fun p => p.domain == (⟨t.toList.take 2⟩ : String)) with
  | some p =>
    have hmem := List.mem_of_find?_eq_some hf
    rw [List.mem_map] at hmem
    obtain ⟨pr, hpr, hsnd⟩ := hmem
    have := hm pr hpr
    rw [hsnd] at this
    simpa [hf] using this
  | none =>
    simp only [hf]
    obtain ⟨c1, c2, rest, hlist, hu1, hu2⟩ := matchesProcPattern_shape t hpat
    apply dirOk_of_no_gt
    have htake : t.toList.take 2 = [c1, c2] := by rw [hlist]; rfl
    have : ((⟨t.toList.take 2⟩ : String) ++ "_Domain").toList =
        t.toList.take 2 ++ "_Domain".toList := by
      simp [String.toList, String.data_append]
    rw [this, htake]
    simp [List.all_cons, upper_no_gt c1 hu1, upper_no_gt c2 hu2]

theorem resolveTarget_inv (st : Pass2State) (t : String) (hinv : EdgeInv st) :
    EdgeInv (resolveTarget st t).1 ∧
    (∀ ti, (resolveTarget st t).2 = some ti → DirOk ti.directoryPath) := by
  obtain ⟨h1, h2, h3, h4, h5⟩ := hinv
  unfold resolveTarget
  cases hl : lookupProc st.proceduresMap t with
  | some ti =>
    refine ⟨⟨h1, h2, h3, h4, h5⟩, ?_⟩
    intro ti0 hti0
    simp at hti0
    subst hti0
    obtain ⟨pr, hpr, hsnd⟩ := lookupProc_mem _ _ _ hl
    have := h4 pr hpr
    rwa [hsnd] at this
  | none =>
    dsimp only
    split
    · rename_i hpat
      have hvd := mkVirtualRecord_dirOk st.proceduresMap t h4 hpat
      refine ⟨⟨h1, h2, h3, ?_, h5⟩, ?_⟩
      · intro pr hpr
        dsimp only at hpr
        rw [List.mem_append, List.mem_singleton] at hpr
        rcases hpr with hpr | hpr
        · exact h4 pr hpr
        · subst hpr
          exact hvd
      · intro ti0 hti0
        simp at hti0
        subst hti0
        exact hvd
    · exact ⟨⟨h1, h2, h3, h4, h5⟩, fun ti0 hti0 => by simp at hti0⟩

theorem edgeInv_fields (s s2 : Pass2State)
    (h1 : s2.dependencySet = s.dependencySet)
    (h2 : s2.directoryDependencies = s.directoryDependencies)
    (h3 : s2.proceduresMap = s.proceduresMap) (h : EdgeInv s) : EdgeInv s2 := by
  unfold EdgeInv at h ⊢
  rw [h1, h2, h3]
  exact h

theorem processTarget_inv (b : Bool) (src : String) (si : ProcedureInfo)
    (st : Pass2State) (t : String) (hinv : EdgeInv st)
    (hsi : DirOk si.directoryPath) : EdgeInv (processTarget b src si st t) := by
  obtain ⟨hst1, hres⟩ := resolveTarget_inv st t hinv
  unfold processTarget
  dsimp only
  split
  · rename_i ti hti
    exact edgeInv_fields _ _ rfl rfl rfl
      (addDirectoryEdge_inv b si ti _ hst1 hsi (hres ti hti))
  · exact edgeInv_fields _ _ rfl rfl rfl hst1

theorem resolveTarget_mono (st : Pass2State) (t : String) :
    (∃ tl, (resolveTarget st t).1.proceduresMap = st.proceduresMap ++ tl) ∧
    (resolveTarget st t).1.directoryDependencies = st.directoryDependencies := by
  unfold resolveTarget
  split
  · exact ⟨⟨[], by simp⟩, rfl⟩
  · split
    · exact ⟨⟨_, rfl⟩, rfl⟩
    · exact ⟨⟨[], by simp⟩, rfl⟩

theorem addDirectoryEdge_deps_mono (b : Bool) (si ti : ProcedureInfo) (st : Pass2State) :
    ∃ tl, (addDirectoryEdge b si ti st).directoryDependencies =
      st.directoryDependencies ++ tl := by
  unfold addDirectoryEdge
  split
  · dsimp only
    split
    · exact ⟨_, rfl⟩
    · exact ⟨[], by simp⟩
  · exact ⟨[], by simp⟩

theorem processTarget_mono (b : Bool) (src : String) (si : ProcedureInfo)
    (st : Pass2State) (t : String) :
    (∃ tl, (processTarget b src si st t).proceduresMap = st.proceduresMap ++ tl) ∧
    (∃ tl, (processTarget b src si st t).directoryDependencies =
      st.directoryDependencies ++ tl) := by
  obtain ⟨⟨tlm, hm⟩, hd⟩ := resolveTarget_mono st t
  unfold processTarget
  dsimp only
  split
  · rename_i ti hti
    obtain ⟨tld, hdd⟩ := addDirectoryEdge_deps_mono b si ti (resolveTarget st t).1
    constructor
    · refine ⟨tlm, ?_⟩
      show (addDirectoryEdge b si ti (resolveTarget st t).1).proceduresMap = _
      rw [addDirectoryEdge_proceduresMap, hm]
    · refine ⟨tld, ?_⟩
      show (addDirectoryEdge b si ti (resolveTarget st t).1).directoryDependencies = _
      rw [hdd, hd]
  · exact ⟨⟨tlm, hm⟩, ⟨[], by rw [hd]; simp⟩⟩

theorem foldl_processTarget_inv (b : Bool) (src : String) (si : ProcedureInfo)
    (hsi : DirOk si.directoryPath) :
    ∀ (ts : List String) (st : Pass2State), EdgeInv st →
      EdgeInv (ts.foldl (processTarget b src si) st) := by
  intro ts
  induction ts with
  | nil => intro st h; exact h
  | cons t rest ih =>
    intro st h
    rw [List.foldl_cons]
    exact ih _ (processTarget_inv b src si st t h hsi)

theorem foldl_processTarget_mono (b : Bool) (src : String) (si : ProcedureInfo) :
    ∀ (ts : List String) (st : Pass2State),
      (∃ tl, (ts.foldl (processTarget b src si) st).proceduresMap =
        st.proceduresMap ++ tl) ∧
      (∃ tl, (ts.foldl (processTarget b src si) st).directoryDependencies =
        st.directoryDependencies ++ tl) := by
  intro ts
  induction ts with
  | nil => intro st; exact ⟨⟨[], by simp⟩, ⟨[], by simp⟩⟩
  | cons t rest ih =>
    intro st
    rw [List.foldl_cons]
    obtain ⟨⟨tlm1, hm1⟩, ⟨tld1, hd1⟩⟩ := processTarget_mono b src si st t
    obtain ⟨⟨tlm2, hm2⟩, ⟨tld2, hd2⟩⟩ := ih (processTarget b src si st t)
    exact ⟨⟨tlm1 ++ tlm2, by rw [hm2, hm1, List.append_assoc]⟩,
           ⟨tld1 ++ tld2, by rw [hd2, hd1, List.append_assoc]⟩⟩

theorem processSource_inv (filesData : List SqlFile) (showAll : Bool)
    (entry : String × ProcedureInfo) (st : Pass2State) (hinv : EdgeInv st)
    (hsi : DirOk entry.2.directoryPath) :
    EdgeInv (processSource filesData showAll entry st) := by
  unfold processSource
  dsimp only
  split
  · exact hinv
  · exact foldl_processTarget_inv showAll entry.1 entry.2 hsi _ _
      (edgeInv_fields _ _ rfl rfl rfl hinv)

theorem processSource_mono (filesData : List SqlFile) (showAll : Bool)
    (entry : String × ProcedureInfo) (st : Pass2State) :
    (∃ tl, (processSource filesData showAll entry st).proceduresMap =
      st.proceduresMap ++ tl) ∧
    (∃ tl, (processSource filesData showAll entry st).directoryDependencies =
      st.directoryDependencies ++ tl) := by
  unfold processSource
  dsimp only
  split
  · exact ⟨⟨[], by simp⟩, ⟨[], by simp⟩⟩
  · exact foldl_processTarget_mono showAll _ _ _ _

theorem pass2Loop_inv (filesData : List SqlFile) (showAll : Bool) :
    ∀ (fuel i : Nat) (st : Pass2State), EdgeInv st →
      EdgeInv (pass2Loop filesData showAll fuel i st) := by
  intro fuel
  induction fuel with
  | zero => intro i st h; exact h
  | succ fuel ih =>
    intro i st h
    unfold pass2Loop
    cases hget : st.proceduresMap[i]? with
    | none => exact h
    | some entry =>
      have hmem : entry ∈ st.proceduresMap := by
        have := List.getElem?_eq_some.mp hget
        obtain ⟨hlt, heq⟩ := this
        exact heq ▸ List.getElem_mem hlt
      exact ih (i + 1) _ (processSource_inv filesData showAll entry st h
        (h.2.2.2.1 entry hmem))

theorem pass2Loop_mono (filesData : List SqlFile) (showAll : Bool) :
    ∀ (fuel i : Nat) (st : Pass2State),
      (∃ tl, (pass2Loop filesData showAll fuel i st).proceduresMap =
        st.proceduresMap ++ tl) ∧
      (∃ tl, (pass2Loop filesData showAll fuel i st).directoryDependencies =
        st.directoryDependencies ++ tl) := by
  intro fuel
  induction fuel with
  | zero => intro i st; exact ⟨⟨[], by simp [pass2Loop]⟩, ⟨[], by simp [pass2Loop]⟩⟩
  | succ fuel ih =>
    intro i st
    unfold pass2Loop
    cases hget : st.proceduresMap[i]? with
    | none => exact ⟨⟨[], by simp⟩, ⟨[], by simp⟩⟩
    | some entry =>
      obtain ⟨⟨tlm1, hm1⟩, ⟨tld1, hd1⟩⟩ :=
        processSource_mono filesData showAll entry st
      obtain ⟨⟨tlm2, hm2⟩, ⟨tld2, hd2⟩⟩ :=
        ih (i + 1) (processSource filesData showAll entry st)
      exact ⟨⟨tlm1 ++ tlm2, by rw [hm2, hm1, List.append_assoc]⟩,
             ⟨tld1 ++ tld2, by rw [hd2, hd1, List.append_assoc]⟩⟩

theorem edgeDone_of_append (dA dB : String) (st st2 : Pass2State)
    (h : ∃ tl, st2.directoryDependencies = st.directoryDependencies ++ tl)
    (hd : EdgeDone dA dB st) : EdgeDone dA dB st2 := by
  obtain ⟨tl, htl⟩ := h
  obtain ⟨e, he, hsrc, htgt⟩ := hd
  exact ⟨e, by rw [htl]; exact List.mem_append_left _ he, hsrc, htgt⟩

theorem processTarget_hits (b : Bool) (src : String) (si : ProcedureInfo)
    (st : Pass2State) (tB : String) (infoB : ProcedureInfo)
    (hinv : EdgeInv st)
    (hB : lookupProc st.proceduresMap tB = some infoB)
    (hsi : DirOk si.directoryPath)
    (hdir : si.directoryPath ≠ infoB.directoryPath)
    (hcond : b = true ∨ si.domain ≠ infoB.domain) :
    EdgeDone si.directoryPath infoB.directoryPath (processTarget b src si st tB) := by
  have hres : resolveTarget st tB = (st, some infoB) := by
    unfold resolveTarget
    rw [hB]
  unfold processTarget
  rw [hres]
  dsimp only
  unfold EdgeDone
  show ∃ e ∈ (addDirectoryEdge b si infoB st).directoryDependencies, _
  have houter : (b || (si.domain != infoB.domain)) = true := by
    rcases hcond with hc | hc
    · rw [hc]; rfl
    · simp [bne_iff_ne, hc]
  unfold addDirectoryEdge
  rw [if_pos houter]
  dsimp only
  cases hcontains : st.dependencySet.contains
      (si.directoryPath ++ "\x2d\x2d\x2d>" ++ infoB.directoryPath) with
  | false =>
    rw [if_pos (by simp [bne_iff_ne, hdir])]
    dsimp only
    refine ⟨_, List.mem_append_right _ (List.mem_singleton.mpr rfl), rfl, rfl⟩
  | true =>
    rw [if_neg (by simp)]
    obtain ⟨h1, _, _, _, h5⟩ := hinv
    have hkmem : (si.directoryPath ++ "\x2d\x2d\x2d>" ++ infoB.directoryPath) ∈
        st.dependencySet := by
      simpa [List.elem_eq_mem] using hcontains
    rw [h1, List.mem_map] at hkmem
    obtain ⟨e, he, hek⟩ := hkmem
    have hpair : edgePair e = edgePair
        ({ sourceDirectory := si.directoryPath,
           targetDirectory := infoB.directoryPath,
           isCrossDomain := true } : DirectoryDependency) := by
      apply edgeKey_inj
      · exact (h5 e he).1
      · exact hsi
      · rw [hek]; rfl
    unfold edgePair at hpair
    rw [Prod.mk.injEq] at hpair
    exact ⟨e, he, hpair.1, hpair.2⟩

theorem lookupProc_mono_of_append (m m2 : List (String × ProcedureInfo))
    (n : String) (v : ProcedureInfo)
    (h : ∃ tl, m2 = m ++ tl) (hl : lookupProc m n = some v) :
    lookupProc m2 n = some v := by
  obtain ⟨tl, htl⟩ := h
  rw [htl]
  exact lookupProc_append _ _ _ _ hl

theorem foldl_processTarget_hits (b : Bool) (src : String) (si : ProcedureInfo)
    (tB : String) (infoB : ProcedureInfo)
    (hsi : DirOk si.directoryPath)
    (hdir : si.directoryPath ≠ infoB.directoryPath)
    (hcond : b = true ∨ si.domain ≠ infoB.domain) :
    ∀ (ts : List String) (st : Pass2State), EdgeInv st →
      lookupProc st.proceduresMap tB = some infoB → tB ∈ ts →
      EdgeDone si.directoryPath infoB.directoryPath
        (ts.foldl (processTarget b src si) st) := by
  intro ts
  induction ts with
  | nil => intro st _ _ hmem; cases hmem
  | cons t rest ih =>
    intro st hinv hB hmem
    rw [List.foldl_cons]
    rcases List.mem_cons.mp hmem with heq | hmem2
    · subst heq
      have hdone := processTarget_hits b src si st tB infoB hinv hB hsi hdir hcond
      exact edgeDone_of_append _ _ _ _
        (foldl_processTarget_mono b src si rest _).2 hdone
    · exact ih _ (processTarget_inv b src si st t hinv hsi)
        (lookupProc_mono_of_append _ _ _ _ (processTarget_mono b src si st t).1 hB)
        hmem2

theorem processSource_hits (filesData : List SqlFile) (showAll : Bool)
    (A : String) (infoA : ProcedureInfo) (st : Pass2State) (fd : SqlFile)
    (B : String) (infoB : ProcedureInfo)
    (hinv : EdgeInv st)
    (hfind : filesData.find? (fun f => f.path == infoA.filePath) = some fd)
    (hB : lookupProc st.proceduresMap B = some infoB)
    (hcall : B ∈ findExecCalls fd.content)
    (hdirA : DirOk infoA.directoryPath)
    (hdir : infoA.directoryPath ≠ infoB.directoryPath)
    (hcond : showAll = true ∨ infoA.domain ≠ infoB.domain) :
    EdgeDone infoA.directoryPath infoB.directoryPath
      (processSource filesData showAll (A, infoA) st) := by
  unfold processSource
  dsimp only
  rw [hfind]
  dsimp only
  by_cases hspecial : ((A == "WI_PostRepack_PostFuelTransferOut_SP") &&
      (! (findExecCalls fd.content).contains "FI_PostFuelInventory_SP")) = true
  · rw [if_pos hspecial]
    exact foldl_processTarget_hits showAll A infoA B infoB hdirA hdir hcond _ _
      (edgeInv_fields _ _ rfl rfl rfl hinv) hB (List.mem_append_left _ hcall)
  · rw [if_neg hspecial]
    exact foldl_processTarget_hits showAll A infoA B infoB hdirA hdir hcond _ _
      (edgeInv_fields _ _ rfl rfl rfl hinv) hB hcall

theorem pass2Loop_hits (filesData : List SqlFile) (showAll : Bool)
    (A : String) (infoA : ProcedureInfo) (B : String) (infoB : ProcedureInfo)
    (fd : SqlFile)
    (hfind : filesData.find? (fun f => f.path == infoA.filePath) = some fd)
    (hcall : B ∈ findExecCalls fd.content)
    (hdir : infoA.directoryPath ≠ infoB.directoryPath)
    (hcond : showAll = true ∨ infoA.domain ≠ infoB.domain) :
    ∀ (fuel i iA : Nat) (st : Pass2State), EdgeInv st →
      st.proceduresMap[iA]? = some (A, infoA) →
      lookupProc st.proceduresMap B = some infoB →
      i ≤ iA → iA - i < fuel →
      EdgeDone infoA.directoryPath infoB.directoryPath
        (pass2Loop filesData showAll fuel i st) := by
  intro fuel
  induction fuel with
  | zero => intro i iA st _ _ _ _ hlt; omega
  | succ fuel ih =>
    intro i iA st hinv hiA hB hile hlt
    have hiAlt : iA < st.proceduresMap.length := (List.getElem?_eq_some.mp hiA).1
    unfold pass2Loop
    cases hget : st.proceduresMap[i]? with
    | none =>
      exfalso
      rw [List.getElem?_eq_none_iff] at hget
      omega
    | some entry =>
      have hmem : entry ∈ st.proceduresMap := by
        obtain ⟨hlt2, heq⟩ := List.getElem?_eq_some.mp hget
        exact heq ▸ List.getElem_mem hlt2
      have hdirEntry : DirOk entry.2.directoryPath := hinv.2.2.2.1 entry hmem
      by_cases hieq : i = iA
      · subst hieq
        rw [hget] at hiA
        injection hiA with hentry
        subst hentry
        have hdone := processSource_hits filesData showAll A infoA st fd B infoB
          hinv hfind hB hcall (hinv.2.2.2.1 (A, infoA) hmem) hdir hcond
        exact edgeDone_of_append _ _ _ _
          (pass2Loop_mono filesData showAll fuel (i + 1) _).2 hdone
      · have hilt : i < iA := lt_of_le_of_ne hile hieq
        obtain ⟨⟨tlm, hm⟩, _⟩ := processSource_mono filesData showAll entry st
        refine ih (i + 1) iA _ (processSource_inv filesData showAll entry st hinv hdirEntry)
          ?_ ?_ (by omega) (by omega)
        · rw [hm]
          rw [List.getElem?_append_left hiAlt]
          exact hiA
        · exact lookupProc_mono_of_append _ _ _ _ ⟨tlm, hm⟩ hB

/-- C1 counterexample: with `includeSameDomain = false`, `FI_A_SP` (directory
`X`, domain `FI`) has `FI_B_SP` (directory `Y`, domain `FI`) among its
detected calls, so the claimed equivalence demands NO `X -> Y` edge for this
pair (same domain, flag off) — yet the output contains the edge `X -> Y`,
produced by the unrelated cross-domain call to `WI_D_SP`: edges are
aggregated per directory pair, so the per-pair "iff" is false. -/
theorem c1_counterexample :
    (lookupProc (analyzeDirectory "root" c1files [] false).procedures
       "FI_A_SP").map (fun i => (i.directoryPath, i.domain)) = some ("X", "FI") ∧
    (lookupProc (analyzeDirectory "root" c1files [] false).procedures
       "FI_B_SP").map (fun i => (i.directoryPath, i.domain)) = some ("Y", "FI") ∧
    "FI_B_SP" ∈ findExecCalls "EXEC FI_B_SP ; EXEC WI_D_SP" ∧
    (analyzeDirectory "root" c1files [] false).directoryDependencies.map edgePair =
      [("X", "Y")] := by
  refine ⟨?_, ?_, ?_, ?_⟩ <;> decide

/-- C1 (amended): in every `analyzeDirectory` run whose discovered directory
paths are free of the `>` character (so no dedup key is ambiguous),
(1) no emitted directory edge is a self-loop,
(2) the emitted edges are duplicate-free by ordered `(sourceDir, targetDir)`
pair, and
(3) for any two registered procedures `A` and `B` in different directories
with `B` among the detected calls of `A`'s file, an `A`-to-`B` directory edge
is present whenever `includeSameDomain` is true or the domains differ
(the converse per-pair direction is refuted by `c1_counterexample`). -/
theorem c1_directory_edges (rootPath : String) (filesData : List SqlFile)
    (fsErrors : List String) (showAll : Bool)
    (hdirs : (pass1State rootPath filesData fsErrors).proceduresMap.all
      (fun pr => pr.2.directoryPath.toList.all (fun c => c != '>')) = true) :
    (∀ e ∈ (analyzeDirectory rootPath filesData fsErrors showAll).directoryDependencies,
       e.sourceDirectory ≠ e.targetDirectory) ∧
    ((analyzeDirectory rootPath filesData fsErrors showAll).directoryDependencies.map
       edgePair).Nodup ∧
    (∀ (A B : String) (infoA infoB : ProcedureInfo) (iA : Nat) (fd : SqlFile),
       (pass1State rootPath filesData fsErrors).proceduresMap[iA]? = some (A, infoA) →
       lookupProc (pass1State rootPath filesData fsErrors).proceduresMap B = some infoB →
       filesData.find? (fun f => f.path == infoA.filePath) = some fd →
       B ∈ findExecCalls fd.content →
       infoA.directoryPath ≠ infoB.directoryPath →
       (showAll = true ∨ infoA.domain ≠ infoB.domain) →
       ∃ e ∈ (analyzeDirectory rootPath filesData fsErrors showAll).directoryDependencies,
         e.sourceDirectory = infoA.directoryPath ∧
         e.targetDirectory = infoB.directoryPath) := by
  have hdirs2 : ∀ pr ∈ (pass1State rootPath filesData fsErrors).proceduresMap,
      DirOk pr.2.directoryPath := by
    intro pr hpr
    exact dirOk_of_no_gt _ (List.all_eq_true.mp hdirs pr hpr)
  have hinv0 : EdgeInv (pass2Init (pass1State rootPath filesData fsErrors)) := by
    refine ⟨rfl, List.nodup_nil, ?_, ?_, ?_⟩
    · intro e he; cases he
    · exact hdirs2
    · intro e he; cases he
  have hres : (analyzeDirectory rootPath filesData fsErrors showAll).directoryDependencies =
      (pass2Loop filesData showAll
        (pass2Fuel filesData (pass1State rootPath filesData fsErrors).proceduresMap.length)
        0 (pass2Init (pass1State rootPath filesData fsErrors))).directoryDependencies := rfl
  have hinvF : EdgeInv (pass2Loop filesData showAll
      (pass2Fuel filesData (pass1State rootPath filesData fsErrors).proceduresMap.length)
      0 (pass2Init (pass1State rootPath filesData fsErrors))) :=
    pass2Loop_inv filesData showAll _ _ _ hinv0
  refine ⟨?_, ?_, ?_⟩
  · intro e he
    rw [hres] at he
    exact hinvF.2.2.1 e he
  · have h1 := hinvF.1
    have h2 := hinvF.2.1
    rw [h1] at h2
    have hcomp : ∀ l : List DirectoryDependency, l.map edgeKey =
        (l.map edgePair).map (fun p => p.1 ++ "\x2d\x2d\x2d>" ++ p.2) := by
      intro l
      rw [List.map_map]
      rfl
    rw [hcomp] at h2
    rw [hres]
    exact h2.of_map _
  · intro A B infoA infoB iA fd hiA hB hfind hcall hdir hcond
    have hiAlt : iA < (pass1State rootPath filesData fsErrors).proceduresMap.length :=
      (List.getElem?_eq_some.mp hiA).1
    have hfuel : iA - 0 < pass2Fuel filesData
        (pass1State rootPath filesData fsErrors).proceduresMap.length := by
      unfold pass2Fuel
      omega
    have hdone := pass2Loop_hits filesData showAll A infoA B infoB fd hfind hcall
      hdir hcond
      (pass2Fuel filesData (pass1State rootPath filesData fsErrors).proceduresMap.length)
      0 iA (pass2Init (pass1State rootPath filesData fsErrors)) hinv0 hiA hB
      (Nat.zero_le iA) hfuel
    rw [hres]
    exact hdone

/-- Witness for C1: the hypothesis holds on a concrete two-file run (the
discovered directories `X` and `Y` carry no `>`), and the amended theorem
applies to it. -/
theorem c1_directory_edges_witness :
    ((pass1State "root" c1wfiles []).proceduresMap.all
      (fun pr => pr.2.directoryPath.toList.all (fun c => c != '>')) = true) ∧
    (∀ e ∈ (analyzeDirectory "root" c1wfiles [] true).directoryDependencies,
       e.sourceDirectory ≠ e.targetDirectory) :=
  ⟨by decide, (c1_directory_edges "root" c1wfiles [] true (by decide)).1⟩

/-! ### C8: idempotence of `removeSqlComments`.

The output of the pipeline contains no `\r`, no `--`, and no block comment
that a second pass could remove, and re-padding the semicolons then
re-collapsing and re-trimming reproduces the string.  The lemmas below walk
these facts through the stages. -/

theorem occursIn_append_left (p u v : List Char) (h : OccursIn p v) :
    OccursIn p (u ++ v) := by
  obtain ⟨x, y, hxy⟩ := h
  exact ⟨u ++ x, y, by rw [hxy]; simp [List.append_assoc]⟩

theorem occursIn_cons (p : List Char) (c : Char) (l : List Char) (h : OccursIn p l) :
    OccursIn p (c :: l) := by
  obtain ⟨x, y, hxy⟩ := h
  exact ⟨c :: x, y, by rw [hxy]; rfl⟩

theorem occursIn_pair_elim (a b c : Char) (l : List Char)
    (h : OccursIn [a, b] (c :: l)) :
    (c = a ∧ l.head? = some b) ∨ OccursIn [a, b] l := by
  obtain ⟨x, y, hxy⟩ := h
  cases x with
  | nil =>
    rw [List.nil_append, List.cons_append, List.cons_append, List.nil_append] at hxy
    injection hxy with h1 h2
    left
    exact ⟨h1, by rw [h2]; rfl⟩
  | cons c0 x0 =>
    rw [List.cons_append] at hxy
    injection hxy with h1 h2
    right
    exact ⟨x0, y, h2⟩

theorem occursIn_pair_empty (a b : Char) : ¬ OccursIn [a, b] [] := by
  rintro ⟨x, y, hxy⟩
  cases x <;> simp at hxy

theorem occursIn_pair_single (a b c : Char) : ¬ OccursIn [a, b] [c] := by
  rintro ⟨x, y, hxy⟩
  rcases x with _ | ⟨c0, x0⟩
  · simp at hxy
  · rw [List.cons_append] at hxy
    injection hxy with h1 h2
    rcases x0 with _ | ⟨c1, x1⟩ <;> simp at h2

theorem findCloseCmt_none_iff :
    ∀ z, findCloseCmt z = none ↔ ¬ OccursIn ['*', '/'] z := by
  intro z
  induction z with
  | nil => exact ⟨fun _ => occursIn_pair_empty _ _, fun _ => rfl⟩
  | cons c rest ih =>
    cases rest with
    | nil =>
      exact ⟨fun _ => occursIn_pair_single _ _ _, fun _ => rfl⟩
    | cons d r =>
      rw [findCloseCmt]
      constructor
      · intro h hocc
        by_cases hcd : c = '*' ∧ d = '/'
        · rw [if_pos hcd] at h; cases h
        · rw [if_neg hcd] at h
          rcases occursIn_pair_elim _ _ _ _ hocc with ⟨h1, h2⟩ | hocc2
          · exact hcd ⟨h1, by injection h2⟩
          · exact (ih.mp h) hocc2
      · intro hocc
        have hcd : ¬ (c = '*' ∧ d = '/') := by
          rintro ⟨h1, h2⟩
          exact hocc ⟨[], r, by rw [h1, h2]; rfl⟩
        rw [if_neg hcd]
        exact ih.mpr (fun h2 => hocc (occursIn_cons _ _ _ h2))

theorem findCloseCmt_suffix :
    ∀ z z', findCloseCmt z = some z' → ∃ u, z = u ++ '*' :: '/' :: z' := by
  intro z
  induction z with
  | nil => intro z' h; cases h
  | cons c rest ih =>
    intro z' h
    cases rest with
    | nil => cases h
    | cons d r =>
      rw [findCloseCmt] at h
      by_cases hcd : c = '*' ∧ d = '/'
      · rw [if_pos hcd] at h
        injection h with h1
        exact ⟨[], by rw [hcd.1, hcd.2, h1]; rfl⟩
      · rw [if_neg hcd] at h
        obtain ⟨u, hu⟩ := ih z' h
        exact ⟨c :: u, by rw [List.cons_append, ← hu]⟩

theorem noReopen_nil : NoReopen [] := by
  rintro u v h
  cases u <;> simp at h

theorem noReopen_tail (c : Char) (l : List Char) (h : NoReopen (c :: l)) :
    NoReopen l := by
  intro u v hl
  exact h (c :: u) v (by rw [hl]; rfl)

theorem noReopen_of_no_closer (z : List Char) (h : findCloseCmt z = none) :
    NoReopen z := by
  intro u v hz
  rw [findCloseCmt_none_iff] at h ⊢
  intro hocc
  apply h
  rw [hz]
  rw [show u ++ '/' :: '*' :: v = (u ++ ['/', '*']) ++ v from by simp]
  exact occursIn_append_left _ _ _ hocc

/-- A separator-free list is a fixed point of the block-comment scanner, for
every fuel value. -/
theorem removeBlockGo_id :
    ∀ (fuel : Nat) (l : List Char), NoReopen l → removeBlockGo fuel l = l := by
  intro fuel
  induction fuel with
  | zero => intro l _; rfl
  | succ fuel ih =>
    intro l hl
    rw [removeBlockGo.eq_def]
    split
    · rfl
    · rfl
    · rename_i fuel2 rest heq
      injection heq with heq2
      subst heq2
      rw [hl [] rest rfl]
      dsimp only
      rw [ih ('*' :: rest) (noReopen_tail _ _ hl)]
    · rename_i fuel2 c rest h1 heq
      injection heq with heq2
      subst heq2
      rw [ih rest (noReopen_tail _ _ hl)]

theorem occursIn_append_right (p u v : List Char) (h : OccursIn p u) :
    OccursIn p (u ++ v) := by
  obtain ⟨x, y, hxy⟩ := h
  exact ⟨x, y ++ v, by rw [hxy]; simp [List.append_assoc]⟩

theorem noReopen_cons (c : Char) (W : List Char) (hW : NoReopen W)
    (hc : c ≠ '/' ∨ W.head? ≠ some '*') : NoReopen (c :: W) := by
  intro u v hz
  cases u with
  | nil =>
    rw [List.nil_append] at hz
    injection hz with h1 h2
    rcases hc with hc | hc
    · exact absurd h1 hc
    · exact absurd (by rw [h2]; rfl) hc
  | cons c0 u0 =>
    rw [List.cons_append] at hz
    injection hz with h1 h2
    exact hW u0 v h2

theorem noReopen_suffix (u v : List Char) (h : NoReopen (u ++ v)) : NoReopen v := by
  intro u0 v0 hv
  exact h (u ++ u0) v0 (by rw [hv, List.append_assoc])

theorem noReopen_prefix (u v : List Char) (h : NoReopen (u ++ v)) : NoReopen u := by
  intro u0 v0 hu
  have h2 := h u0 (v0 ++ v) (by rw [hu]; simp [List.append_assoc])
  rw [findCloseCmt_none_iff] at h2 ⊢
  intro hocc
  exact h2 (occursIn_append_right _ _ _ hocc)

theorem removeBlockGo_head (fuel : Nat) (z : List Char) :
    (removeBlockGo fuel z).head? = z.head? ∨
    (removeBlockGo fuel z).head? = some ' ' := by
  cases fuel with
  | zero => exact Or.inl rfl
  | succ fuel =>
    rw [removeBlockGo.eq_def]
    split
    · exact Or.inl rfl
    · exact Or.inl rfl
    · rename_i fuel2 rest heq
      cases hfc : findCloseCmt rest with
      | some rest2 => exact Or.inr rfl
      | none => exact Or.inl rfl
    · exact Or.inl rfl

/-- With enough fuel, the block-comment scanner's output has no opener with a
later closer. -/
theorem removeBlockGo_noReopen :
    ∀ (fuel : Nat) (x : List Char), x.length ≤ fuel →
      NoReopen (removeBlockGo fuel x) := by
  intro fuel
  induction fuel with
  | zero =>
    intro x hx
    have : x = [] := List.length_eq_zero.mp (Nat.le_zero.mp hx)
    subst this
    exact noReopen_nil
  | succ fuel ih =>
    intro x hx
    rw [removeBlockGo.eq_def]
    split
    · omega
    · exact noReopen_nil
    · rename_i fuel2 rest heq
      injection heq with heq2
      subst heq2
      cases hfc : findCloseCmt rest with
      | some rest2 =>
        dsimp only
        have hlen : rest2.length ≤ fuel := by
          have h1 := findCloseCmt_length rest rest2 hfc
          have h2 : rest.length + 2 ≤ fuel + 1 := by simpa using hx
          omega
        exact noReopen_cons ' ' _ (ih rest2 hlen) (Or.inl (by decide))
      | none =>
        dsimp only
        have hstar : NoReopen ('*' :: rest) :=
          noReopen_cons '*' rest (noReopen_of_no_closer rest hfc) (Or.inl (by decide))
        rw [removeBlockGo_id fuel ('*' :: rest) hstar]
        intro u v hz
        cases u with
        | nil =>
          rw [List.nil_append] at hz
          injection hz with h1 h2
          injection h2 with h3 h4
          rw [← h4]
          exact hfc
        | cons c0 u0 =>
          rw [List.cons_append] at hz
          injection hz with h1 h2
          exact hstar u0 v h2
    · rename_i fuel2 c rest hne heq
      injection heq with heq2
      subst heq2
      have hlen : rest.length ≤ fuel := by
        have : rest.length + 1 ≤ fuel + 1 := by simpa using hx
        omega
      refine noReopen_cons c _ (ih rest hlen) ?_
      by_cases hc : c = '/'
      · right
        intro hhead
        rcases removeBlockGo_head fuel rest with hh | hh
        · rw [hh] at hhead
          cases rest with
          | nil => cases hhead
          | cons d rest2 =>
            injection hhead with h5
            exact hne rest2 hc (by rw [h5])
        · rw [hh] at hhead
          injection hhead with h5
          cases h5
      · exact Or.inl hc

theorem not_occursIn_suffix (p u v : List Char) (h : ¬ OccursIn p (u ++ v)) :
    ¬ OccursIn p v := fun h2 => h (occursIn_append_left p u v h2)

theorem not_occursIn_prefix (p u v : List Char) (h : ¬ OccursIn p (u ++ v)) :
    ¬ OccursIn p u := fun h2 => h (occursIn_append_right p u v h2)

theorem not_occursIn_tail (p : List Char) (c : Char) (l : List Char)
    (h : ¬ OccursIn p (c :: l)) : ¬ OccursIn p l :=
  fun h2 => h (occursIn_cons p c l h2)

theorem wsSp_append (u v : List Char) (h : WsSp (u ++ v)) : WsSp u ∧ WsSp v :=
  ⟨fun c hc => h c (List.mem_append_left v hc),
   fun c hc => h c (List.mem_append_right u hc)⟩

theorem wsSp_tail (c : Char) (l : List Char) (h : WsSp (c :: l)) : WsSp l :=
  fun d hd => h d (List.mem_cons_of_mem c hd)

theorem lastNotWs_tail (c : Char) (l : List Char) (h : LastNotWs (c :: l)) :
    LastNotWs l := by
  intro d hd
  cases l with
  | nil => cases hd
  | cons e l2 =>
    apply h d
    rw [List.getLast?_cons_cons]
    exact hd

theorem getLast?_cons_ne (c : Char) (r : List Char) (h : r ≠ []) :
    (c :: r).getLast? = r.getLast? := by
  cases r with
  | nil => exact absurd rfl h
  | cons d r2 => rw [List.getLast?_cons_cons]

/-- `\r\n` normalisation is the identity on `\r`-free text. -/
theorem normNL_id : ∀ l : List Char, '\r' ∉ l → normNL l = l := by
  intro l
  induction l with
  | nil => intro _; rfl
  | cons c rest ih =>
    intro h
    rw [normNL.eq_def]
    split
    · rename_i rest2 heq
      injection heq with h1 h2
      exfalso
      apply h
      rw [h1]
      exact List.mem_cons_self _ _
    · rename_i c2 rest2 hne heq
      injection heq with h1 h2
      subst h1
      subst h2
      rw [ih (fun hm => h (List.mem_cons_of_mem _ hm))]
    · rename_i heq
      exact heq.symm

/-- The head of the true-mode output is a newline, if anything. -/
theorem stripLC_true_head :
    ∀ l : List Char, (stripLC true l).head? = none ∨
      (stripLC true l).head? = some '\n' := by
  intro l
  induction l with
  | nil => exact Or.inl rfl
  | cons c rest ih =>
    rw [stripLC.eq_def]
    split
    · exact Or.inl rfl
    · exact Or.inr rfl
    · rename_i c2 rest2 hne hb heq
      injection heq with h1 h2
      subst h2
      exact ih
    · rename_i rest2 hb heq
      exact absurd hb (by decide)
    · rename_i rest2 hb heq
      exact absurd hb (by decide)
    · rename_i c2 rest2 hne1 hne2 hb heq
      exact absurd hb (by decide)

/-- Line-comment stripping is the identity on `--`-free text. -/
theorem stripLC_id : ∀ l : List Char, NoDD l → stripLC false l = l := by
  intro l
  induction l with
  | nil => intro _; rfl
  | cons c rest ih =>
    intro h
    rw [stripLC.eq_def]
    split
    · rename_i heq
      exact heq.symm
    · rename_i rest2 hb heq
      exact absurd hb (by decide)
    · rename_i c2 rest2 hne hb heq
      exact absurd hb (by decide)
    · rename_i rest2 hb heq
      injection heq with h1 h2
      exact absurd ⟨[], rest2, by rw [h1, h2]; rfl⟩ h
    · rename_i rest2 hb heq
      injection heq with h1 h2
      subst h2
      rw [h1, ih (not_occursIn_tail _ _ _ h)]
    · rename_i c2 rest2 hne1 hne2 hb heq
      injection heq with h1 h2
      subst h1
      subst h2
      rw [ih (not_occursIn_tail _ _ _ h)]

/-- The false-mode output does not start with a dash unless the input does. -/
theorem stripLC_false_head (l : List Char) (h : l.head? ≠ some '-') :
    (stripLC false l).head? ≠ some '-' := by
  cases l with
  | nil => simp [stripLC]
  | cons c rest =>
    have hc : c ≠ '-' := by
      intro hc
      apply h
      rw [hc]
      rfl
    rw [stripLC.eq_def]
    split
    · simp
    · rename_i rest2 hb heq
      exact absurd hb (by decide)
    · rename_i c2 rest2 hne hb heq
      exact absurd hb (by decide)
    · rename_i rest2 hb heq
      injection heq with h1 h2
      exact absurd h1 hc
    · simp
    · rename_i c2 rest2 hne1 hne2 hb heq
      injection heq with h1 h2
      subst h1
      intro h3
      simp at h3
      exact hc h3

/-- The line stripper never emits `--` (in either mode). -/
theorem stripLC_noDD : ∀ (n : Nat) (l : List Char), l.length ≤ n →
    ∀ b, NoDD (stripLC b l) := by
  intro n
  induction n with
  | zero =>
    intro l hl b
    have : l = [] := List.length_eq_zero.mp (Nat.le_zero.mp hl)
    subst this
    cases b <;> exact occursIn_pair_empty _ _
  | succ n ih =>
    intro l hl b
    cases l with
    | nil => cases b <;> exact occursIn_pair_empty _ _
    | cons c rest =>
      have hrest : rest.length ≤ n := by
        have : rest.length + 1 ≤ n + 1 := by simpa using hl
        omega
      cases b with
      | true =>
        rw [stripLC.eq_def]
        split
        · exact occursIn_pair_empty _ _
        · rename_i rest2 hb heq
          injection heq with h1 h2
          subst h2
          intro hocc
          rcases occursIn_pair_elim _ _ _ _ hocc with ⟨hh, _⟩ | hocc2
          · exact absurd hh (by decide)
          · exact ih rest hrest false hocc2
        · rename_i c2 rest2 hne hb heq
          injection heq with h1 h2
          subst h2
          exact ih rest hrest true
        · rename_i rest2 hb heq
          exact absurd hb (by decide)
        · rename_i rest2 hb heq
          exact absurd hb (by decide)
        · rename_i c2 rest2 hne1 hne2 hb heq
          exact absurd hb (by decide)
      | false =>
        rw [stripLC.eq_def]
        split
        · exact occursIn_pair_empty _ _
        · rename_i rest2 hb heq
          exact absurd hb (by decide)
        · rename_i c2 rest2 hne hb heq
          exact absurd hb (by decide)
        · rename_i rest2 hb heq
          injection heq with h1 h2
          subst h2
          have h2len : rest2.length ≤ n := by
            have : ('-' :: rest2).length ≤ n := by
              simpa using hrest
            simp at this
            omega
          exact ih rest2 h2len true
        · rename_i rest2 hb heq
          injection heq with h1 h2
          subst h2
          intro hocc
          rcases occursIn_pair_elim _ _ _ _ hocc with ⟨hh, _⟩ | hocc2
          · exact absurd hh (by decide)
          · exact ih rest hrest false hocc2
        · rename_i c2 rest2 hne1 hne2 hb heq
          injection heq with h1 h2
          subst h1
          subst h2
          intro hocc
          rcases occursIn_pair_elim _ _ _ _ hocc with ⟨hh, hh2⟩ | hocc2
          · subst hh
            have hne : rest.head? ≠ some '-' := by
              intro hhead
              cases rest with
              | nil => cases hhead
              | cons d rest3 =>
                injection hhead with h3
                exact hne1 rest3 rfl (by rw [h3])
            exact (stripLC_false_head rest hne) hh2
          · exact ih rest hrest false hocc2

theorem padSemis_cons_ne (c : Char) (r : List Char) (hc : c ≠ ';') :
    padSemis (c :: r) = c :: padSemis r := by
  rw [padSemis.eq_def]
  split
  · rename_i heq
    simp at heq
  · rename_i rest2 heq
    injection heq with h1 h2
    exact absurd h1 hc
  · rename_i c2 rest2 hne heq
    injection heq with h1 h2
    subst h1
    subst h2
    rfl

theorem collapseGo_false_cons (c : Char) (X : List Char) :
    collapseGo false (c :: X) =
      if isWsChar c then ' ' :: collapseGo true X else c :: collapseGo false X := rfl

theorem collapseGo_true_cons (c : Char) (X : List Char) :
    collapseGo true (c :: X) =
      if isWsChar c then collapseGo true X else c :: collapseGo false X := rfl

theorem gC_semi (r : List Char) : gC (';' :: r) = ' ' :: ';' :: ' ' :: aC r := rfl

theorem aC_semi (r : List Char) : aC (';' :: r) = ';' :: ' ' :: aC r := rfl

theorem gC_ws (c : Char) (r : List Char) (h : isWsChar c = true) (hc : c ≠ ';') :
    gC (c :: r) = ' ' :: aC r := by
  unfold gC aC
  rw [padSemis_cons_ne c r hc, collapseGo_false_cons, if_pos h]

theorem aC_ws (c : Char) (r : List Char) (h : isWsChar c = true) (hc : c ≠ ';') :
    aC (c :: r) = aC r := by
  unfold aC
  rw [padSemis_cons_ne c r hc, collapseGo_true_cons, if_pos h]

theorem gC_other (c : Char) (r : List Char) (h : isWsChar c = false) (hc : c ≠ ';') :
    gC (c :: r) = c :: gC r := by
  unfold gC
  rw [padSemis_cons_ne c r hc, collapseGo_false_cons, if_neg (by rw [h]; exact Bool.false_ne_true)]

theorem aC_other (c : Char) (r : List Char) (h : isWsChar c = false) (hc : c ≠ ';') :
    aC (c :: r) = c :: gC r := by
  unfold aC gC
  rw [padSemis_cons_ne c r hc, collapseGo_true_cons, if_neg (by rw [h]; exact Bool.false_ne_true)]

theorem gC_head (r : List Char) :
    (gC r).head? = r.head? ∨ (gC r).head? = some ' ' := by
  cases r with
  | nil => exact Or.inl rfl
  | cons c r0 =>
    by_cases hc : c = ';'
    · subst hc
      rw [gC_semi]
      exact Or.inr rfl
    · cases hws : isWsChar c with
      | true =>
        rw [gC_ws c r0 hws hc]
        exact Or.inr rfl
      | false =>
        rw [gC_other c r0 hws hc]
        exact Or.inl rfl

theorem gC_head_ne_semi (r : List Char) : (gC r).head? ≠ some ';' := by
  cases r with
  | nil => intro h; cases h
  | cons c r0 =>
    by_cases hc : c = ';'
    · subst hc
      rw [gC_semi]
      intro h
      injection h with h1
      exact absurd h1 (by decide)
    · cases hws : isWsChar c with
      | true =>
        rw [gC_ws c r0 hws hc]
        intro h
        injection h with h1
        exact absurd h1 (by decide)
      | false =>
        rw [gC_other c r0 hws hc]
        intro h
        injection h with h1
        exact hc h1

theorem removeBlockGo_nil (fuel : Nat) : removeBlockGo fuel [] = [] := by
  cases fuel <;> rfl

theorem removeBlockGo_ss_some (fuel : Nat) (rest r2 : List Char)
    (h : findCloseCmt rest = some r2) :
    removeBlockGo (fuel + 1) ('/' :: '*' :: rest) = ' ' :: removeBlockGo fuel r2 := by
  rw [show removeBlockGo (fuel + 1) ('/' :: '*' :: rest) =
      (match findCloseCmt rest with
       | some r3 => ' ' :: removeBlockGo fuel r3
       | none => '/' :: removeBlockGo fuel ('*' :: rest)) from rfl, h]

theorem removeBlockGo_ss_none (fuel : Nat) (rest : List Char)
    (h : findCloseCmt rest = none) :
    removeBlockGo (fuel + 1) ('/' :: '*' :: rest) =
      '/' :: removeBlockGo fuel ('*' :: rest) := by
  rw [show removeBlockGo (fuel + 1) ('/' :: '*' :: rest) =
      (match findCloseCmt rest with
       | some r3 => ' ' :: removeBlockGo fuel r3
       | none => '/' :: removeBlockGo fuel ('*' :: rest)) from rfl, h]

theorem removeBlockGo_cons_ne (fuel : Nat) (c : Char) (rest : List Char)
    (h : ¬ (c = '/' ∧ rest.head? = some '*')) :
    removeBlockGo (fuel + 1) (c :: rest) = c :: removeBlockGo fuel rest := by
  rw [removeBlockGo.eq_def]
  split
  · omega
  · rename_i heq
    simp at heq
  · rename_i fl rv hfe heq
    injection heq with h1 h2
    exact absurd ⟨h1, by rw [h2]; rfl⟩ h
  · rename_i fl cv rv hdis hfe heq
    injection hfe with hfe2
    injection heq with h1 h2
    subst hfe2
    subst h1
    subst h2
    rfl

/-- The block scanner only inserts spaces: any other two-character pattern in
its output was already in its input. -/
theorem removeBlockGo_occ_pullback :
    ∀ (fuel : Nat) (z : List Char) (a b : Char), a ≠ ' ' → b ≠ ' ' →
      OccursIn [a, b] (removeBlockGo fuel z) → OccursIn [a, b] z := by
  intro fuel
  induction fuel with
  | zero => intro z a b _ _ h; exact h
  | succ fuel ih =>
    intro z a b ha hb h
    rcases z with - | ⟨c, rest⟩
    · exact h
    · by_cases hcd : c = '/' ∧ rest.head? = some '*'
      · obtain ⟨hc, hd⟩ := hcd
        subst hc
        rcases rest with - | ⟨d, rest2⟩
        · cases hd
        · injection hd with hd2
          subst hd2
          cases hfc : findCloseCmt rest2 with
          | some rest4 =>
            rw [removeBlockGo_ss_some fuel rest2 rest4 hfc] at h
            rcases occursIn_pair_elim _ _ _ _ h with ⟨hh, _⟩ | hocc2
            · exact absurd hh.symm ha
            · have hocc3 := ih rest4 a b ha hb hocc2
              obtain ⟨u, hu⟩ := findCloseCmt_suffix rest2 rest4 hfc
              apply occursIn_cons
              apply occursIn_cons
              rw [hu]
              rw [show u ++ '*' :: '/' :: rest4 = (u ++ ['*', '/']) ++ rest4 from by simp]
              exact occursIn_append_left _ _ _ hocc3
          | none =>
            rw [removeBlockGo_ss_none fuel rest2 hfc] at h
            rcases occursIn_pair_elim _ _ _ _ h with ⟨hh, hh2⟩ | hocc2
            · subst hh
              rcases removeBlockGo_head fuel ('*' :: rest2) with hh3 | hh3
              · rw [hh3] at hh2
                injection hh2 with h7
                subst h7
                exact ⟨[], rest2, rfl⟩
              · rw [hh3] at hh2
                injection hh2 with h7
                exact absurd h7.symm hb
            · exact occursIn_cons _ _ _ (ih _ a b ha hb hocc2)
      · rw [removeBlockGo_cons_ne fuel c rest hcd] at h
        rcases occursIn_pair_elim _ _ _ _ h with ⟨hh, hh2⟩ | hocc2
        · subst hh
          rcases removeBlockGo_head fuel rest with hh3 | hh3
          · rw [hh3] at hh2
            rcases rest with - | ⟨d, rest2⟩
            · cases hh2
            · injection hh2 with h7
              subst h7
              exact ⟨[], rest2, rfl⟩
          · rw [hh3] at hh2
            injection hh2 with h7
            exact absurd h7.symm hb
        · exact occursIn_cons _ _ _ (ih _ a b ha hb hocc2)

/-- Padding and collapsing only insert spaces next to semicolons: any
two-character pattern avoiding spaces and semicolons in the output was in the
input. -/
theorem cp_occ_pullback :
    ∀ (n : Nat) (r : List Char), r.length ≤ n →
      ∀ a b, a ≠ ' ' → a ≠ ';' → b ≠ ' ' →
        (OccursIn [a, b] (gC r) → OccursIn [a, b] r) ∧
        (OccursIn [a, b] (aC r) → OccursIn [a, b] r) := by
  intro n
  induction n with
  | zero =>
    intro r hr a b _ _ _
    have : r = [] := List.length_eq_zero.mp (Nat.le_zero.mp hr)
    subst this
    exact ⟨fun h => h, fun h => h⟩
  | succ n ih =>
    intro r hr a b ha1 ha2 hb1
    rcases r with - | ⟨c, r0⟩
    · exact ⟨fun h => h, fun h => h⟩
    · have hr0 : r0.length ≤ n := by
        have : r0.length + 1 ≤ n + 1 := by simpa using hr
        omega
      have ihr := ih r0 hr0 a b ha1 ha2 hb1
      by_cases hc : c = ';'
      · subst hc
        constructor
        · rw [gC_semi]
          intro h
          rcases occursIn_pair_elim _ _ _ _ h with ⟨hh, _⟩ | h2
          · exact absurd hh.symm ha1
          rcases occursIn_pair_elim _ _ _ _ h2 with ⟨hh, _⟩ | h3
          · exact absurd hh.symm ha2
          rcases occursIn_pair_elim _ _ _ _ h3 with ⟨hh, _⟩ | h4
          · exact absurd hh.symm ha1
          exact occursIn_cons _ _ _ (ihr.2 h4)
        · rw [aC_semi]
          intro h
          rcases occursIn_pair_elim _ _ _ _ h with ⟨hh, _⟩ | h2
          · exact absurd hh.symm ha2
          rcases occursIn_pair_elim _ _ _ _ h2 with ⟨hh, _⟩ | h3
          · exact absurd hh.symm ha1
          exact occursIn_cons _ _ _ (ihr.2 h3)
      · cases hws : isWsChar c with
        | true =>
          constructor
          · rw [gC_ws c r0 hws hc]
            intro h
            rcases occursIn_pair_elim _ _ _ _ h with ⟨hh, _⟩ | h2
            · exact absurd hh.symm ha1
            exact occursIn_cons _ _ _ (ihr.2 h2)
          · rw [aC_ws c r0 hws hc]
            intro h
            exact occursIn_cons _ _ _ (ihr.2 h)
        | false =>
          have hfront : OccursIn [a, b] (c :: gC r0) → OccursIn [a, b] (c :: r0) := by
            intro h
            rcases occursIn_pair_elim _ _ _ _ h with ⟨hh, hh2⟩ | h2
            · subst hh
              rcases gC_head r0 with hh3 | hh3
              · rw [hh3] at hh2
                rcases r0 with - | ⟨d, r1⟩
                · cases hh2
                · injection hh2 with h7
                  subst h7
                  exact ⟨[], r1, rfl⟩
              · rw [hh3] at hh2
                injection hh2 with h7
                exact absurd h7.symm hb1
            · exact occursIn_cons _ _ _ (ihr.1 h2)
          constructor
          · rw [gC_other c r0 hws hc]
            exact hfront
          · rw [aC_other c r0 hws hc]
            exact hfront

/-- Padding and collapsing preserve the absence of re-removable block
comments. -/
theorem cp_noReopen :
    ∀ (n : Nat) (r : List Char), r.length ≤ n → NoReopen r →
      NoReopen (gC r) ∧ NoReopen (aC r) := by
  intro n
  induction n with
  | zero =>
    intro r hr _
    have : r = [] := List.length_eq_zero.mp (Nat.le_zero.mp hr)
    subst this
    exact ⟨noReopen_nil, noReopen_nil⟩
  | succ n ih =>
    intro r hr hnr
    rcases r with - | ⟨c, r0⟩
    · exact ⟨noReopen_nil, noReopen_nil⟩
    · have hr0 : r0.length ≤ n := by
        have : r0.length + 1 ≤ n + 1 := by simpa using hr
        omega
      have ihr := ih r0 hr0 (noReopen_tail _ _ hnr)
      by_cases hc : c = ';'
      · subst hc
        constructor
        · rw [gC_semi]
          exact noReopen_cons ' ' _ (noReopen_cons ';' _ (noReopen_cons ' ' _ ihr.2
            (Or.inl (by decide))) (Or.inl (by decide))) (Or.inl (by decide))
        · rw [aC_semi]
          exact noReopen_cons ';' _ (noReopen_cons ' ' _ ihr.2
            (Or.inl (by decide))) (Or.inl (by decide))
      · cases hws : isWsChar c with
        | true =>
          constructor
          · rw [gC_ws c r0 hws hc]
            exact noReopen_cons ' ' _ ihr.2 (Or.inl (by decide))
          · rw [aC_ws c r0 hws hc]
            exact ihr.2
        | false =>
          have hmain : NoReopen (c :: gC r0) := by
            by_cases hslash : c = '/' ∧ (gC r0).head? = some '*'
            · obtain ⟨hc2, hh⟩ := hslash
              subst hc2
              have hr0star : r0.head? = some '*' := by
                rcases gC_head r0 with hh3 | hh3
                · rw [← hh3]; exact hh
                · rw [hh3] at hh
                  injection hh with h7
                  exact absurd h7 (by decide)
              rcases r0 with - | ⟨d, r1⟩
              · cases hr0star
              · injection hr0star with h7
                subst h7
                have hfc : findCloseCmt r1 = none := hnr [] r1 rfl
                have hnocc : ¬ OccursIn ['*', '/'] r1 :=
                  (findCloseCmt_none_iff r1).mp hfc
                have hr1 : r1.length ≤ n := by
                  have : r1.length + 2 ≤ n + 1 := by simpa using hr
                  omega
                have hnoccg : ¬ OccursIn ['*', '/'] (gC r1) := fun hx =>
                  hnocc ((cp_occ_pullback (n) r1 (by omega) '*' '/'
                    (by decide) (by decide) (by decide)).1 hx)
                rw [gC_other '*' r1 (by decide) (by decide)]
                intro u v hz
                cases u with
                | nil =>
                  rw [List.nil_append] at hz
                  injection hz with h1 h2
                  injection h2 with h3 h4
                  rw [← h4]
                  exact (findCloseCmt_none_iff (gC r1)).mpr hnoccg
                | cons c0 u0 =>
                  rw [List.cons_append] at hz
                  injection hz with h1 h2
                  refine noReopen_cons '*' (gC r1) ?_ (Or.inl (by decide)) u0 v h2
                  intro u1 v1 hz1
                  rw [findCloseCmt_none_iff]
                  intro hx
                  apply hnoccg
                  rw [hz1]
                  rw [show u1 ++ '/' :: '*' :: v1 = (u1 ++ ['/', '*']) ++ v1 from by simp]
                  exact occursIn_append_left _ _ _ hx
            · rw [Classical.not_and_iff_or_not_not] at hslash
              rcases hslash with hs | hs
              · exact noReopen_cons c _ ihr.1 (Or.inl hs)
              · exact noReopen_cons c _ ihr.1 (Or.inr hs)
          constructor
          · rw [gC_other c r0 hws hc]
            exact hmain
          · rw [aC_other c r0 hws hc]
            exact hmain

theorem collapseGo_nil (b : Bool) : collapseGo b [] = [] := by
  cases b <;> rfl

/-- The collapse scanner emits spaces for whitespace runs: every whitespace
character of its output is a plain space. -/
theorem collapseGo_wsSp : ∀ (l : List Char) (b : Bool), WsSp (collapseGo b l) := by
  intro l
  induction l with
  | nil =>
    intro b c hc _
    rw [collapseGo_nil] at hc
    cases hc
  | cons c rest ih =>
    intro b
    cases b with
    | true =>
      rw [collapseGo_true_cons]
      cases hws : isWsChar c with
      | true => rw [if_pos rfl]; exact ih true
      | false =>
        rw [if_neg (by simp [hws])]
        intro d hd hdws
        rcases List.mem_cons.mp hd with hd | hd
        · subst hd; rw [hws] at hdws; cases hdws
        · exact ih false d hd hdws
    | false =>
      rw [collapseGo_false_cons]
      cases hws : isWsChar c with
      | true =>
        rw [if_pos rfl]
        intro d hd hdws
        rcases List.mem_cons.mp hd with hd | hd
        · exact hd
        · exact ih true d hd hdws
      | false =>
        rw [if_neg (by simp [hws])]
        intro d hd hdws
        rcases List.mem_cons.mp hd with hd | hd
        · subst hd; rw [hws] at hdws; cases hdws
        · exact ih false d hd hdws

/-- The collapse scanner never emits two adjacent spaces, and in run mode its
output never starts with a space. -/
theorem collapseGo_noSS : ∀ (l : List Char),
    (¬ OccursIn [' ', ' '] (collapseGo false l)) ∧
    (collapseGo true l).head? ≠ some ' ' ∧
    ¬ OccursIn [' ', ' '] (collapseGo true l) := by
  intro l
  induction l with
  | nil =>
    rw [collapseGo_nil, collapseGo_nil]
    refine ⟨occursIn_pair_empty _ _, ?_, occursIn_pair_empty _ _⟩
    intro h; cases h
  | cons c rest ih =>
    obtain ⟨ihf, ihh, iht⟩ := ih
    cases hws : isWsChar c with
    | true =>
      have hfalse : collapseGo false (c :: rest) = ' ' :: collapseGo true rest := by
        rw [collapseGo_false_cons, if_pos hws]
      have htrue : collapseGo true (c :: rest) = collapseGo true rest := by
        rw [collapseGo_true_cons, if_pos hws]
      refine ⟨?_, by rw [htrue]; exact ihh, by rw [htrue]; exact iht⟩
      rw [hfalse]
      intro h
      rcases occursIn_pair_elim _ _ _ _ h with ⟨_, hh2⟩ | h2
      · exact ihh hh2
      · exact iht h2
    | false =>
      have hcs : c ≠ ' ' := by
        intro hcc
        subst hcc
        rw [show isWsChar ' ' = true from by decide] at hws
        cases hws
      have hfalse : collapseGo false (c :: rest) = c :: collapseGo false rest := by
        rw [collapseGo_false_cons, if_neg (by rw [hws]; simp)]
      have htrue : collapseGo true (c :: rest) = c :: collapseGo false rest := by
        rw [collapseGo_true_cons, if_neg (by rw [hws]; simp)]
      have hocc : ¬ OccursIn [' ', ' '] (c :: collapseGo false rest) := by
        intro h
        rcases occursIn_pair_elim _ _ _ _ h with ⟨hh, _⟩ | h2
        · exact hcs hh
        · exact ihf h2
      refine ⟨by rw [hfalse]; exact hocc, ?_, by rw [htrue]; exact hocc⟩
      rw [htrue]
      intro h
      injection h with h1
      exact hcs h1

/-- `trimRight` keeps a prefix. -/
theorem trimRight_prefix : ∀ z : List Char, ∃ v, z = trimRight z ++ v := by
  intro z
  induction z with
  | nil => exact ⟨[], rfl⟩
  | cons c rest ih =>
    obtain ⟨v, hv⟩ := ih
    rw [trimRight]
    cases htr : trimRight rest with
    | nil =>
      cases hws : isWsChar c with
      | true =>
        rw [if_pos rfl]
        refine ⟨c :: rest, rfl⟩
      | false =>
        rw [if_neg (by simp [hws])]
        refine ⟨rest, rfl⟩
    | cons e r2 =>
      refine ⟨v, ?_⟩
      rw [List.cons_append, ← htr, ← hv]

/-- Appending trailing whitespace does not change `trimRight`. -/
theorem trimRight_append_ws : ∀ (u : List Char) (c : Char), isWsChar c = true →
    trimRight (u ++ [c]) = trimRight u := by
  intro u
  induction u with
  | nil =>
    intro c h
    show trimRight [c] = []
    rw [trimRight, trimRight]
    rw [if_pos h]
  | cons x u2 ih =>
    intro c h
    rw [List.cons_append, trimRight, trimRight, ih c h]

/-- `trimRight` is the identity when the last character is not whitespace. -/
theorem trimRight_id : ∀ z : List Char, LastNotWs z → trimRight z = z := by
  intro z
  induction z with
  | nil => intro _; rfl
  | cons c rest ih =>
    intro h
    cases rest with
    | nil =>
      have hc : isWsChar c = false := h c rfl
      rw [trimRight, trimRight]
      rw [if_neg (by rw [hc]; exact Bool.false_ne_true)]
    | cons d rest2 =>
      rw [trimRight, ih (lastNotWs_tail _ _ h)]

/-- The output of `trimRight` does not end in whitespace. -/
theorem trimRight_lastNotWs : ∀ z : List Char, LastNotWs (trimRight z) := by
  intro z
  induction z with
  | nil => intro c hc; cases hc
  | cons c rest ih =>
    rw [trimRight]
    cases htr : trimRight rest with
    | nil =>
      cases hws : isWsChar c with
      | true =>
        rw [if_pos rfl]
        intro d hd
        cases hd
      | false =>
        rw [if_neg (by simp [hws])]
        intro d hd
        injection hd with h1
        subst h1
        exact hws
    | cons e r2 =>
      intro d hd
      rw [getLast?_cons_ne c (e :: r2) (List.cons_ne_nil e r2)] at hd
      apply ih d
      rw [htr]
      exact hd

/-- `trimRight` preserves a non-whitespace head. -/
theorem trimRight_headNotWs (z : List Char) (h : HeadNotWs z) :
    HeadNotWs (trimRight z) := by
  cases z with
  | nil => intro c hc; cases hc
  | cons c rest =>
    have hc : isWsChar c = false := h c rfl
    rw [trimRight]
    cases htr : trimRight rest with
    | nil =>
      rw [if_neg (by rw [hc]; exact Bool.false_ne_true)]
      intro d hd
      injection hd with h1
      subst h1
      exact hc
    | cons e r2 =>
      intro d hd
      injection hd with h1
      subst h1
      exact hc

/-- The head of `dropWhile` fails the predicate. -/
theorem dropWhile_headNotWs : ∀ z : List Char, HeadNotWs (z.dropWhile isWsChar) := by
  intro z
  induction z with
  | nil => intro c hc; cases hc
  | cons c rest ih =>
    rw [List.dropWhile_cons]
    cases hws : isWsChar c with
    | true => rw [if_pos rfl]; exact ih
    | false =>
      rw [if_neg (by simp [hws])]
      intro d hd
      injection hd with h1
      subst h1
      exact hws

/-- After padding and collapsing, every `;` is followed by a space or the
end. -/
theorem cp_semiR : ∀ (n : Nat) (r : List Char), r.length ≤ n →
    SemiR (gC r) ∧ SemiR (aC r) := by
  intro n
  induction n with
  | zero =>
    intro r hr
    have : r = [] := List.length_eq_zero.mp (Nat.le_zero.mp hr)
    subst this
    exact ⟨fun d _ => occursIn_pair_empty _ _, fun d _ => occursIn_pair_empty _ _⟩
  | succ n ih =>
    intro r hr
    rcases r with - | ⟨c, r0⟩
    · exact ⟨fun d _ => occursIn_pair_empty _ _, fun d _ => occursIn_pair_empty _ _⟩
    · have hr0 : r0.length ≤ n := by
        have : r0.length + 1 ≤ n + 1 := by simpa using hr
        omega
      have ihr := ih r0 hr0
      have hA : SemiR (';' :: ' ' :: aC r0) := by
        intro d hd h
        rcases occursIn_pair_elim _ _ _ _ h with ⟨_, hh2⟩ | h2
        · injection hh2 with h3
          exact hd h3.symm
        rcases occursIn_pair_elim _ _ _ _ h2 with ⟨hh, _⟩ | h3
        · exact absurd hh.symm (by decide)
        · exact ihr.2 d hd h3
      by_cases hc : c = ';'
      · subst hc
        constructor
        · rw [gC_semi]
          intro d hd h
          rcases occursIn_pair_elim _ _ _ _ h with ⟨hh, _⟩ | h2
          · exact absurd hh.symm (by decide)
          · exact hA d hd h2
        · rw [aC_semi]
          exact hA
      · cases hws : isWsChar c with
        | true =>
          constructor
          · rw [gC_ws c r0 hws hc]
            intro d hd h
            rcases occursIn_pair_elim _ _ _ _ h with ⟨hh, _⟩ | h2
            · exact absurd hh.symm (by decide)
            · exact ihr.2 d hd h2
          · rw [aC_ws c r0 hws hc]
            exact ihr.2
        | false =>
          have hmain : SemiR (c :: gC r0) := by
            intro d hd h
            rcases occursIn_pair_elim _ _ _ _ h with ⟨hh, _⟩ | h2
            · exact hc hh
            · exact ihr.1 d hd h2
          constructor
          · rw [gC_other c r0 hws hc]
            exact hmain
          · rw [aC_other c r0 hws hc]
            exact hmain

/-- After padding and collapsing, every `;` is preceded by a space or the
start. -/
theorem cp_semiL : ∀ (n : Nat) (r : List Char), r.length ≤ n →
    SemiL (gC r) ∧ SemiL (aC r) := by
  intro n
  induction n with
  | zero =>
    intro r hr
    have : r = [] := List.length_eq_zero.mp (Nat.le_zero.mp hr)
    subst this
    exact ⟨fun d _ => occursIn_pair_empty _ _, fun d _ => occursIn_pair_empty _ _⟩
  | succ n ih =>
    intro r hr
    rcases r with - | ⟨c, r0⟩
    · exact ⟨fun d _ => occursIn_pair_empty _ _, fun d _ => occursIn_pair_empty _ _⟩
    · have hr0 : r0.length ≤ n := by
        have : r0.length + 1 ≤ n + 1 := by simpa using hr
        omega
      have ihr := ih r0 hr0
      have hA : SemiL (';' :: ' ' :: aC r0) := by
        intro d hd h
        rcases occursIn_pair_elim _ _ _ _ h with ⟨_, hh2⟩ | h2
        · injection hh2 with h3
          exact absurd h3 (by decide)
        rcases occursIn_pair_elim _ _ _ _ h2 with ⟨hh, _⟩ | h3
        · exact hd hh.symm
        · exact ihr.2 d hd h3
      by_cases hc : c = ';'
      · subst hc
        constructor
        · rw [gC_semi]
          intro d hd h
          rcases occursIn_pair_elim _ _ _ _ h with ⟨hh, _⟩ | h2
          · exact hd hh.symm
          · exact hA d hd h2
        · rw [aC_semi]
          exact hA
      · cases hws : isWsChar c with
        | true =>
          constructor
          · rw [gC_ws c r0 hws hc]
            intro d hd h
            rcases occursIn_pair_elim _ _ _ _ h with ⟨hh, _⟩ | h2
            · exact hd hh.symm
            · exact ihr.2 d hd h2
          · rw [aC_ws c r0 hws hc]
            exact ihr.2
        | false =>
          have hmain : SemiL (c :: gC r0) := by
            intro d hd h
            rcases occursIn_pair_elim _ _ _ _ h with ⟨_, hh2⟩ | h2
            · exact gC_head_ne_semi r0 hh2
            · exact ihr.1 d hd h2
          constructor
          · rw [gC_other c r0 hws hc]
            exact hmain
          · rw [aC_other c r0 hws hc]
            exact hmain

theorem semiR_tail (c : Char) (l : List Char) (h : SemiR (c :: l)) : SemiR l :=
  fun d hd hocc => h d hd (occursIn_cons _ _ _ hocc)

theorem semiL_tail (c : Char) (l : List Char) (h : SemiL (c :: l)) : SemiL l :=
  fun d hd hocc => h d hd (occursIn_cons _ _ _ hocc)

theorem tsp_cons_ne (c : Char) (r : List Char) (h : r ≠ []) : tsp (c :: r) = tsp r := by
  unfold tsp
  rw [getLast?_cons_ne c r h]

theorem lsp_cons_ne (c : Char) (r : List Char) (hc : c ≠ ';') : lsp (c :: r) = [] := by
  unfold lsp
  rw [if_neg (by intro hh; injection hh with hh2; exact hc hh2)]

theorem tsp_single_ne (c : Char) (hc : c ≠ ';') : tsp [c] = [] := by
  unfold tsp
  rw [if_neg (by intro hh; injection hh with hh2; exact hc hh2)]

/-- Re-padding and re-collapsing an already collapsed, space-normalised,
semicolon-spaced text reproduces it, up to one extra space before a leading
`;` and after a trailing `;`. -/
theorem cp_roundtrip : ∀ (n : Nat) (r : List Char), r.length ≤ n →
    WsSp r → (¬ OccursIn [' ', ' '] r) → SemiR r → SemiL r → LastNotWs r →
    gC r = lsp r ++ r ++ tsp r ∧
    (r.head? ≠ some ' ' → aC r = r ++ tsp r) := by
  intro n
  induction n with
  | zero =>
    intro r hr _ _ _ _ _
    have : r = [] := List.length_eq_zero.mp (Nat.le_zero.mp hr)
    subst this
    exact ⟨rfl, fun _ => rfl⟩
  | succ n ih =>
    intro r hr hws1 hss hsr hsl hlast
    rcases r with - | ⟨c, r0⟩
    · exact ⟨rfl, fun _ => rfl⟩
    · by_cases hc : c = ';'
      · subst hc
        have hshape : r0 = [] ∨ ∃ y2, r0 = ' ' :: y2 := by
          rcases r0 with - | ⟨d, r1⟩
          · exact Or.inl rfl
          · by_cases hd : d = ' '
            · exact Or.inr ⟨r1, by rw [hd]⟩
            · exact absurd ⟨[], r1, rfl⟩ (hsr d hd)
        rcases hshape with hnil | ⟨y2, hy2⟩
        · subst hnil
          exact ⟨rfl, fun _ => rfl⟩
        · subst hy2
          have hy2ne : y2 ≠ [] := by
            intro hy
            subst hy
            have := hlast ' ' rfl
            rw [show isWsChar ' ' = true from by decide] at this
            cases this
          have hy2head : y2.head? ≠ some ' ' := by
            intro hh
            rcases y2 with - | ⟨e, y3⟩
            · cases hh
            · injection hh with hh2
              subst hh2
              exact hss ⟨[';'], y3, rfl⟩
          have hy2len : y2.length ≤ n := by
            have : y2.length + 2 ≤ n + 1 := by simpa using hr
            omega
          have ihy := ih y2 hy2len
            (wsSp_tail _ _ (wsSp_tail _ _ hws1))
            (not_occursIn_tail _ _ _ (not_occursIn_tail _ _ _ hss))
            (semiR_tail _ _ (semiR_tail _ _ hsr))
            (semiL_tail _ _ (semiL_tail _ _ hsl))
            (lastNotWs_tail _ _ (lastNotWs_tail _ _ hlast))
          have haY := ihy.2 hy2head
          have htsp : tsp (';' :: ' ' :: y2) = tsp y2 := by
            rw [tsp_cons_ne _ _ (List.cons_ne_nil _ _), tsp_cons_ne _ _ hy2ne]
          constructor
          · rw [gC_semi, aC_ws ' ' y2 (by decide) (by decide), haY, htsp]
            rw [show lsp (';' :: ' ' :: y2) = [' '] from rfl]
            simp
          · intro _
            rw [aC_semi, aC_ws ' ' y2 (by decide) (by decide), haY, htsp]
            simp
      · cases hws : isWsChar c with
        | true =>
          have hcsp : c = ' ' := hws1 c (List.mem_cons_self _ _) hws
          subst hcsp
          refine ⟨?_, fun hh => absurd rfl hh⟩
          have hr0ne : r0 ≠ [] := by
            intro hy
            subst hy
            have := hlast ' ' rfl
            rw [show isWsChar ' ' = true from by decide] at this
            cases this
          have hr0head : r0.head? ≠ some ' ' := by
            intro hh
            rcases r0 with - | ⟨e, y3⟩
            · cases hh
            · injection hh with hh2
              subst hh2
              exact hss ⟨[], y3, rfl⟩
          have hr0len : r0.length ≤ n := by
            have : r0.length + 1 ≤ n + 1 := by simpa using hr
            omega
          have ihy := ih r0 hr0len (wsSp_tail _ _ hws1)
            (not_occursIn_tail _ _ _ hss) (semiR_tail _ _ hsr)
            (semiL_tail _ _ hsl) (lastNotWs_tail _ _ hlast)
          rw [gC_ws ' ' r0 (by decide) hc, ihy.2 hr0head,
            lsp_cons_ne ' ' r0 hc, tsp_cons_ne ' ' r0 hr0ne]
          simp
        | false =>
          have hcs : c ≠ ' ' := by
            intro hcc
            subst hcc
            rw [show isWsChar ' ' = true from by decide] at hws
            cases hws
          have hr0len : r0.length ≤ n := by
            have : r0.length + 1 ≤ n + 1 := by simpa using hr
            omega
          have ihy := ih r0 hr0len (wsSp_tail _ _ hws1)
            (not_occursIn_tail _ _ _ hss) (semiR_tail _ _ hsr)
            (semiL_tail _ _ hsl) (lastNotWs_tail _ _ hlast)
          have hl0 : lsp r0 = [] := by
            rcases r0 with - | ⟨d, r1⟩
            · rfl
            · by_cases hd : d = ';'
              · subst hd
                exact absurd ⟨[], r1, rfl⟩ (hsl c hcs)
              · exact lsp_cons_ne d r1 hd
          rcases hr0nil : r0 with - | ⟨d, r1⟩
          · constructor
            · rw [gC_other c [] hws hc, lsp_cons_ne c [] hc, tsp_single_ne c hc]
              rfl
            · intro _
              rw [aC_other c [] hws hc, tsp_single_ne c hc]
              rfl
          · rw [← hr0nil]
            have hr0ne : r0 ≠ [] := by rw [hr0nil]; exact List.cons_ne_nil _ _
            have hg : gC r0 = r0 ++ tsp r0 := by
              rw [ihy.1 , hl0]
              rfl
            constructor
            · rw [gC_other c r0 hws hc, hg, lsp_cons_ne c r0 hc,
                tsp_cons_ne c r0 hr0ne]
              simp
            · intro _
              rw [aC_other c r0 hws hc, hg, tsp_cons_ne c r0 hr0ne]
              simp

theorem not_occursIn_jsTrim (p z : List Char) (h : ¬ OccursIn p z) :
    ¬ OccursIn p (jsTrim z) := by
  unfold jsTrim
  rw [← List.takeWhile_append_dropWhile isWsChar z] at h
  have h1 := not_occursIn_suffix p _ _ h
  obtain ⟨v, hv⟩ := trimRight_prefix (z.dropWhile isWsChar)
  rw [hv] at h1
  exact not_occursIn_prefix p _ _ h1

theorem noReopen_jsTrim (z : List Char) (h : NoReopen z) : NoReopen (jsTrim z) := by
  unfold jsTrim
  rw [← List.takeWhile_append_dropWhile isWsChar z] at h
  have h1 := noReopen_suffix _ _ h
  obtain ⟨v, hv⟩ := trimRight_prefix (z.dropWhile isWsChar)
  rw [hv] at h1
  exact noReopen_prefix _ _ h1

theorem wsSp_jsTrim (z : List Char) (h : WsSp z) : WsSp (jsTrim z) := by
  unfold jsTrim
  rw [← List.takeWhile_append_dropWhile isWsChar z] at h
  have h1 := (wsSp_append _ _ h).2
  obtain ⟨v, hv⟩ := trimRight_prefix (z.dropWhile isWsChar)
  rw [hv] at h1
  exact (wsSp_append _ _ h1).1

/-- Trimming the once-collapsed text undoes the boundary spaces the second
pad-and-collapse adds. -/
theorem jsTrim_gC (y : List Char)
    (hws1 : WsSp y) (hss : ¬ OccursIn [' ', ' '] y) (hsr : SemiR y)
    (hsl : SemiL y) (hhead : HeadNotWs y) (hlast : LastNotWs y) :
    jsTrim (gC y) = y := by
  have hrt := cp_roundtrip y.length y le_rfl hws1 hss hsr hsl hlast
  rw [hrt.1]
  have hdrop : (lsp y ++ y ++ tsp y).dropWhile isWsChar = y ++ tsp y := by
    rcases y with - | ⟨c, y0⟩
    · rfl
    · rw [List.append_assoc]
      by_cases hc : c = ';'
      · subst hc
        rw [show lsp (';' :: y0) = [' '] from rfl]
        rw [List.singleton_append, List.dropWhile_cons, if_pos (by decide)]
        rw [List.cons_append, List.dropWhile_cons, if_neg (by decide)]
      · have hcnw : isWsChar c = false := hhead c rfl
        rw [lsp_cons_ne c y0 hc, List.nil_append]
        rw [List.cons_append, List.dropWhile_cons, if_neg (by rw [hcnw]; simp)]
  unfold jsTrim
  rw [hdrop]
  by_cases hts : y.getLast? = some ';'
  · rw [show tsp y = [' '] from by unfold tsp; rw [if_pos hts]]
    rw [trimRight_append_ws y ' ' (by decide)]
    exact trimRight_id y hlast
  · rw [show tsp y = [] from by unfold tsp; rw [if_neg hts]]
    rw [List.append_nil]
    exact trimRight_id y hlast

/-- Every structural invariant the idempotence argument needs holds of the
pipeline's output. -/
theorem removeSqlCommentsL_inv (l : List Char) :
    WsSp (removeSqlCommentsL l) ∧ (¬ OccursIn [' ', ' '] (removeSqlCommentsL l)) ∧
    SemiR (removeSqlCommentsL l) ∧ SemiL (removeSqlCommentsL l) ∧
    HeadNotWs (removeSqlCommentsL l) ∧ LastNotWs (removeSqlCommentsL l) ∧
    NoDD (removeSqlCommentsL l) ∧ NoReopen (removeSqlCommentsL l) := by
  have hyz : removeSqlCommentsL l =
      jsTrim (gC (removeBlock (stripLC false (normNL l)))) := rfl
  rw [hyz]
  refine ⟨?_, ?_, ?_, ?_, ?_, ?_, ?_, ?_⟩
  · exact wsSp_jsTrim _ (collapseGo_wsSp _ false)
  · exact not_occursIn_jsTrim _ _ (collapseGo_noSS _).1
  · intro d hd
    exact not_occursIn_jsTrim _ _
      ((cp_semiR (removeBlock (stripLC false (normNL l))).length _ le_rfl).1 d hd)
  · intro d hd
    exact not_occursIn_jsTrim _ _
      ((cp_semiL (removeBlock (stripLC false (normNL l))).length _ le_rfl).1 d hd)
  · exact trimRight_headNotWs _ (dropWhile_headNotWs _)
  · exact trimRight_lastNotWs _
  · have h1 : NoDD (stripLC false (normNL l)) :=
      stripLC_noDD (normNL l).length (normNL l) le_rfl false
    have h2 : NoDD (removeBlock (stripLC false (normNL l))) := fun hocc =>
      h1 (removeBlockGo_occ_pullback _ _ '-' '-' (by decide) (by decide) hocc)
    have h3 : NoDD (gC (removeBlock (stripLC false (normNL l)))) := fun hocc =>
      h2 ((cp_occ_pullback (removeBlock (stripLC false (normNL l))).length _
        le_rfl '-' '-' (by decide) (by decide) (by decide)).1 hocc)
    exact not_occursIn_jsTrim _ _ h3
  · have h1 : NoReopen (removeBlock (stripLC false (normNL l))) :=
      removeBlockGo_noReopen _ _ (by omega)
    have h2 := (cp_noReopen (removeBlock (stripLC false (normNL l))).length _
      le_rfl h1).1
    exact noReopen_jsTrim _ h2

theorem removeSqlCommentsL_idem (l : List Char) :
    removeSqlCommentsL (removeSqlCommentsL l) = removeSqlCommentsL l := by
  obtain ⟨hws, hss, hsr, hsl, hhead, hlast, hdd, hnr⟩ := removeSqlCommentsL_inv l
  have hcr : '\r' ∉ removeSqlCommentsL l := fun hm =>
    absurd (hws '\r' hm (by decide)) (by decide)
  show jsTrim (collapseWs (padSemis (removeBlock
    (stripLC false (normNL (removeSqlCommentsL l)))))) = removeSqlCommentsL l
  rw [normNL_id _ hcr, stripLC_id _ hdd,
    show removeBlock (removeSqlCommentsL l) = removeSqlCommentsL l from
      removeBlockGo_id _ _ hnr]
  exact jsTrim_gC _ hws hss hsr hsl hhead hlast

/-- C8: the comment stripper is idempotent — stripping twice equals stripping
once, for every input string.  The output contains no `\r`, no `--`, and no
re-removable block comment, and re-padding the semicolons then re-collapsing
and re-trimming reproduces it exactly. -/
theorem c8_removeSqlComments_idempotent (s : String) :
    removeSqlComments (removeSqlComments s) = removeSqlComments s := by
  unfold removeSqlComments
  congr 1
  exact removeSqlCommentsL_idem s.toList

/-- C4: the stored `procedures` field is NOT the DFS path slice in path
order.  On the mutual pair the DFS path slice through the repeat is
`[WI_B_SP, FI_A_SP, WI_B_SP]`, but the source computes the dedup key with
`cycleProcedures.sort()`, which sorts the aliased array in place before the
push, so the stored field is the alphabetically sorted
`[FI_A_SP, WI_B_SP, WI_B_SP]` — not a closed path (its consecutive pair
`(WI_B_SP, WI_B_SP)` is no call edge). -/
theorem c4_cycle_order_bug :
    (detectCycles pairNodes).map ProcedureCycle.procedures =
      [["FI_A_SP", "WI_B_SP", "WI_B_SP"]] ∧
    (detectCycles pairNodes).map ProcedureCycle.procedures ≠
      [["WI_B_SP", "FI_A_SP", "WI_B_SP"]] := by
  decide

end SqlCoupling
